import Mathlib

/-!
# Laberinto: verification of the maze-chase game core

Shallow embedding of `src/main.cpp` (ESP32 maze game): the grid, the
breadth-first pathfinder `bfsNextStep`, the actor moves `movePlayer` and
`moveEnemy`, the difficulty clock `enemySpeed` and the `loop` state machine.

Conventions of the embedding

* C `int` values are `Int`; `int8_t`, `uint16_t` and `unsigned long` (32 bit on
  the ESP32) values are reduced explicitly with `toInt8`, `toU16`, `toU32`.
* `grid[r][c]` is `g r c` for a total function `g`; the actor operations go
  through `gridGet` / `gridSet`, which answer `none` outside the array, so a
  result `some s` also says that no access left the array.
* `bfsQ[0 .. tail)` is the list `q` (so `tail = q.length`), `bfsPar[r][c]` is
  `par r c`.
* Loops without a syntactic bound (`while (head < tail)`, `while (true)`) take
  a fuel argument and answer `none` when it runs out.
* `float` values that occur in `enemySpeed` are integers; `f32round` is the
  IEEE-754 binary32 round-to-nearest-even of an integer.
-/

namespace Laberinto

/-! ## Constants -/

def COLS : Int := 32
def ROWS : Int := 16
def NCELLS : Nat := 512
def NO_VISIT : Nat := 0xFFFF
def PLAYER_SPEED : Nat := 150
def ENEMY_SPEED_BASE : Int := 480
def ENEMY_SPEED_MIN : Int := 80
def SPEED_INTERVAL : Nat := 30
def SPEED_STEP : Int := 50
def DEAD_Z : Int := 700
def JOY_MID : Int := 2048

/-! ## Machine integers -/

/-- Conversion of an `int` to `int8_t`. -/
def toInt8 (n : Int) : Int := (n + 128) % 256 - 128

/-- Conversion of an `int` to `uint16_t`. -/
def toU16 (n : Int) : Nat := (n % 65536).toNat

/-- Conversion of an integer to `unsigned long` (32 bit). -/
def toU32 (n : Int) : Nat := (n % 4294967296).toNat

/-! ## Data model -/

/-- The C `struct Pos { int8_t x, y; }`. -/
structure Pos where
  x : Int
  y : Int
deriving DecidableEq

/-- The array `char grid[ROWS][COLS]`: `g r c` is `grid[r][c]`. -/
abbrev Grid := Int → Int → Char

/-- The C `enum State { PLAYING, GAME_OVER }`. -/
inductive GState where
  | PLAYING
  | GAME_OVER
deriving DecidableEq

/-- A cell index pair lies inside the `ROWS x COLS` array. -/
def inBounds (x y : Int) : Prop := 0 ≤ x ∧ x < COLS ∧ 0 ≤ y ∧ y < ROWS

instance (x y : Int) : Decidable (inBounds x y) := by
  unfold inBounds; infer_instance

/-- Read of `grid[r][c]`, `none` outside the array. -/
def gridGet (g : Grid) (r c : Int) : Option Char :=
  if inBounds c r then some (g r c) else none

/-- The grid `g` with the value `v` stored in `grid[r][c]`. -/
def setCell (g : Grid) (r c : Int) (v : Char) : Grid :=
  fun r1 c1 => if r1 = r ∧ c1 = c then v else g r1 c1

/-- Write `grid[r][c] = v`, `none` outside the array. -/
def gridSet (g : Grid) (r c : Int) (v : Char) : Option Grid :=
  if inBounds c r then some (setCell g r c v) else none

/-- The constant `MAZE_TPL`, one string per row. -/
def MAZE_TPL : List String :=
  [ "11111111111111111111111111111111",
    "10000000001000000000000010100011",
    "10111000101101011101100000000011",
    "10001010100000001000001000001011",
    "10101010101101101010101010001011",
    "10000010001000100010000000001011",
    "10011110100011101010111111111011",
    "10001000100010000000100000000011",
    "11101010100000001011111011100011",
    "10000000000010001000000010100011",
    "10101010011010001000101110101011",
    "10000000000000000000101000001011",
    "10110011101110001101101011111011",
    "10000000000000000000001000000011",
    "11111111111111111111111111111111",
    "11111111111111111111111111111111" ]

/-- The character `MAZE_TPL[r][c]` (the terminating NUL for anything else). -/
def mazeTpl (r c : Int) : Char :=
  ((MAZE_TPL.getD r.toNat "").data).getD c.toNat (Char.ofNat 0)

/-! ## Pathfinder -/

/-- The C `p2i`: `(uint16_t)(y * COLS + x)`. -/
def p2i (x y : Int) : Nat := toU16 (y * COLS + x)

/-- The C `i2p`: `{(int8_t)(idx % COLS), (int8_t)(idx / COLS)}`. -/
def i2p (idx : Nat) : Pos := ⟨toInt8 ((idx : Int) % COLS), toInt8 ((idx : Int) / COLS)⟩

/-- The search state of `bfsNextStep`: the table `bfsPar`, the written part
`bfsQ[0 .. tail)` of the queue and the read index `head`. -/
structure Bfs where
  par : Int → Int → Nat
  q : List Nat
  head : Nat

/-- The neighbour offsets `(dx[d], dy[d])` for `d = 0, 1, 2, 3`. -/
def DIRS : List (Int × Int) := [(1, 0), (-1, 0), (0, 1), (0, -1)]

/-- One pass of the body of `for (int d = 0; d < 4; d++)` for the dequeued
index `ci` and the offset `d`. -/
def visit (g : Grid) (ci : Nat) (st : Bfs) (d : Int × Int) : Bfs :=
  let cp := i2p ci
  let nx := cp.x + d.1
  let ny := cp.y + d.2
  if nx < 0 ∨ ny < 0 ∨ nx ≥ COLS ∨ ny ≥ ROWS then st
  else if g ny nx = '1' then st
  else if st.par ny nx ≠ NO_VISIT then st
  else
    { par := fun r c => if r = ny ∧ c = nx then ci else st.par r c,
      q := st.q ++ [p2i nx ny],
      head := st.head }

/-- The whole `for d` loop for the dequeued index `ci`. -/
def expand (g : Grid) (ci : Nat) (st : Bfs) : Bfs :=
  DIRS.foldl (visit g ci) st

/-- The loop `while (head < tail)`, at most `fuel` evaluations of its
condition; `none` when the fuel runs out. -/
def bfsLoop (g : Grid) (dstI : Nat) : Nat → Bfs → Option Bfs
  | 0, _ => none
  | fuel + 1, st =>
    if st.head < st.q.length then
      let ci := st.q.getD st.head 0
      let st1 : Bfs := { par := st.par, q := st.q, head := st.head + 1 }
      if ci = dstI then some st1
      else bfsLoop g dstI fuel (expand g ci st1)
    else some st

/-- The loop `while (true)` that walks the predecessors back from `cur`, at
most `fuel` iterations; the `break` leads to the final `return {-1, -1}`. -/
def walkBack (par : Int → Int → Nat) (srcI : Nat) : Nat → Nat → Option Pos
  | 0, _ => none
  | fuel + 1, cur =>
    let cp := i2p cur
    let p := par cp.y cp.x
    if p = srcI then some cp
    else if p = cur then some ⟨-1, -1⟩
    else walkBack par srcI fuel p

/-- The state before the search loop: every entry `NO_VISIT`, then
`bfsQ[tail++] = srcI; bfsPar[ey][ex] = srcI`. -/
def bfsInit (ex ey : Int) : Bfs :=
  { par := fun r c => if r = ey ∧ c = ex then p2i ex ey else NO_VISIT,
    q := [p2i ex ey],
    head := 0 }

/-- The function `bfsNextStep` with both loops bounded by `fuel`. -/
def bfsNextStepFuel (fuel : Nat) (g : Grid) (ex ey px py : Int) : Option Pos :=
  match bfsLoop g (p2i px py) fuel (bfsInit ex ey) with
  | none => none
  | some st =>
    if st.par py px = NO_VISIT then some ⟨-1, -1⟩
    else walkBack st.par (p2i ex ey) fuel (p2i px py)

/-- The function `bfsNextStep`; `NCELLS + 1` evaluations of each loop condition
are shown below to be enough for every in-bounds query. -/
def bfsNextStep (g : Grid) (ex ey px py : Int) : Option Pos :=
  bfsNextStepFuel (NCELLS + 1) g ex ey px py

/-! ## Game state and actors -/

/-- The global variables of the program. -/
structure State where
  grid : Grid
  player : Pos
  enemy : Pos
  gameState : GState
  startTime : Nat
  surviveTime : Nat
  lastPlayer : Nat
  lastEnemy : Nat

/-- The function `readJoystick` on the two raw samples `analogRead(PIN_JX)`
and `analogRead(PIN_JY)`. -/
def readJoystick (ax ay : Int) : Pos :=
  let rx := ax - JOY_MID
  let ry := ay - JOY_MID
  if |rx| > |ry| then
    if rx > DEAD_Z then ⟨1, 0⟩
    else if rx < -DEAD_Z then ⟨-1, 0⟩
    else ⟨0, 0⟩
  else
    if ry > DEAD_Z then ⟨0, 1⟩
    else if ry < -DEAD_Z then ⟨0, -1⟩
    else ⟨0, 0⟩

/-- The function `movePlayer`, with `d` the value of `readJoystick()`. -/
def movePlayer (s : State) (d : Pos) : Option State :=
  if d.x = 0 ∧ d.y = 0 then some s
  else
    let nx := s.player.x + d.x
    let ny := s.player.y + d.y
    if nx < 0 ∨ ny < 0 ∨ nx ≥ COLS ∨ ny ≥ ROWS then some s
    else
      (gridGet s.grid ny nx).bind fun ch =>
        if ch = '1' ∨ ch = 'P' then some s
        else
          (gridSet s.grid s.player.y s.player.x '0').bind fun g1 =>
            let pl : Pos := ⟨toInt8 nx, toInt8 ny⟩
            (gridSet g1 pl.y pl.x 'A').bind fun g2 =>
              some { s with grid := g2, player := pl }

/-- The function `moveEnemy`. -/
def moveEnemy (s : State) : Option State :=
  (gridSet s.grid s.player.y s.player.x '0').bind fun g1 =>
  (gridSet g1 s.enemy.y s.enemy.x '0').bind fun g2 =>
  (bfsNextStep g2 s.enemy.x s.enemy.y s.player.x s.player.y).bind fun next =>
  (gridSet g2 s.player.y s.player.x 'A').bind fun g3 =>
    if next.x = -1 then
      (gridSet g3 s.enemy.y s.enemy.x 'P').bind fun g4 =>
        some { s with grid := g4 }
    else
      (gridSet g3 s.enemy.y s.enemy.x '0').bind fun g4 =>
      (gridSet g4 next.y next.x 'P').bind fun g5 =>
        some { s with grid := g5, enemy := next }

/-- The function `initGame`; `now` is the value of `millis()`. -/
def initGame (s : State) (now : Nat) : State :=
  let g0 : Grid := fun r c => if inBounds c r then mazeTpl r c else s.grid r c
  let player : Pos := ⟨1, 1⟩
  let enemy : Pos := ⟨29, 13⟩
  let g1 : Grid := setCell g0 player.y player.x 'A'
  let g2 : Grid := setCell g1 enemy.y enemy.x 'P'
  { s with grid := g2, player := player, enemy := enemy,
           startTime := now, gameState := GState.PLAYING }

/-! ## Difficulty clock -/

/-- Round-to-nearest-even of the integer `z` to a binary32 `float` (24 bit
significand); the result is again an integer. -/
def f32round (z : Int) : Int :=
  let a := z.natAbs
  let e := Nat.log2 a - 23
  let m := a / 2 ^ e
  let r := a % 2 ^ e
  let m1 := if 2 * r > 2 ^ e ∨ (2 * r = 2 ^ e ∧ m % 2 = 1) then m + 1 else m
  z.sign * ((m1 * 2 ^ e : Nat) : Int)

/-- The function `enemySpeed`; `now` is the value of `millis()`. -/
def enemySpeed (now startTime : Nat) : Nat :=
  let seconds := toU32 ((now : Int) - startTime) / 1000
  let level := seconds / SPEED_INTERVAL
  let speed := f32round (ENEMY_SPEED_BASE - f32round (f32round level * SPEED_STEP))
  let speed1 := if speed < ENEMY_SPEED_MIN then ENEMY_SPEED_MIN else speed
  toU32 speed1

/-! ## Main loop -/

/-- What one call of `loop` reads from the outside: the restart button
(`true` when `digitalRead(PIN_SW) == LOW`), the two joystick samples, and the
values of `millis()` at its four call sites: `now` in `loop`, `nowSpeed` in
`enemySpeed`, `nowEnd` at the collision, `nowInit` in `initGame` on restart. -/
structure Input where
  sw : Bool
  jx : Int
  jy : Int
  now : Nat
  nowSpeed : Nat
  nowEnd : Nat
  nowInit : Nat

/-- The player tick of `loop`: lines `if (now - lastPlayer >= PLAYER_SPEED)
{ movePlayer(); lastPlayer = now; }`. -/
def playerTick (s : State) (i : Input) : Option State :=
  if toU32 ((i.now : Int) - s.lastPlayer) ≥ PLAYER_SPEED then
    (movePlayer s (readJoystick i.jx i.jy)).map fun t => { t with lastPlayer := i.now }
  else some s

/-- The enemy tick of `loop`: lines `if (now - lastEnemy >= enemySpeed())
{ moveEnemy(); lastEnemy = now; }`. -/
def enemyTick (s : State) (i : Input) : Option State :=
  if toU32 ((i.now : Int) - s.lastEnemy) ≥ enemySpeed i.nowSpeed s.startTime then
    (moveEnemy s).map fun t => { t with lastEnemy := i.now }
  else some s

/-- The collision check at the end of `loop`. -/
def collide (s : State) (i : Input) : State :=
  if s.player.x = s.enemy.x ∧ s.player.y = s.enemy.y then
    { s with surviveTime := toU32 ((i.nowEnd : Int) - s.startTime),
             gameState := GState.GAME_OVER }
  else s

/-- The function `loop` (drawing omitted). -/
def loop (s : State) (i : Input) : Option State :=
  if s.gameState = GState.GAME_OVER then
    if i.sw then some (initGame s i.nowInit) else some s
  else
    (playerTick s i).bind fun s1 =>
      (enemyTick s1 i).bind fun s2 =>
        some (collide s2 i)

/-! ## Specification vocabulary -/

/-- The cell `b` is one of the four grid neighbours of `a`. -/
def adj4 (a b : Pos) : Prop :=
  (b.x = a.x + 1 ∧ b.y = a.y) ∨ (b.x = a.x - 1 ∧ b.y = a.y) ∨
  (b.x = a.x ∧ b.y = a.y + 1) ∨ (b.x = a.x ∧ b.y = a.y - 1)

/-- The cell `p` is inside the array and is not a wall. -/
def freeCell (g : Grid) (p : Pos) : Prop := inBounds p.x p.y ∧ g p.y p.x ≠ '1'

/-- `Walk g a b n`: there is a 4-connected walk of `n` steps from `a` to `b`
all of whose cells after the start `a` are in-bounds non-wall cells. -/
inductive Walk (g : Grid) (a : Pos) : Pos → Nat → Prop
  | nil : Walk g a a 0
  | snoc {b c : Pos} {n : Nat} : Walk g a b n → adj4 b c → freeCell g c → Walk g a c (n + 1)

/-- The cell `b` can be reached from `a`. -/
def Reachable (g : Grid) (a b : Pos) : Prop := ∃ n, Walk g a b n

/-- The shortest-path distance from `a` to `b` is `d`. -/
def IsDist (g : Grid) (a b : Pos) (d : Nat) : Prop :=
  Walk g a b d ∧ ∀ n, Walk g a b n → d ≤ n

/-- The enemy position after `n` successive applications of `bfsNextStep`
towards the fixed target `p` on the fixed grid `g`. -/
def chase (g : Grid) (p : Pos) : Nat → Pos → Option Pos
  | 0, e => some e
  | n + 1, e => (bfsNextStep g e.x e.y p.x p.y).bind fun r => chase g p n r

/-- The neighbour of `c` at offset `d`, when it is a free cell, is in the queue
at a level at most one above that of `c`. -/
def Handled (g : Grid) (q : List Nat) (lev : Nat → Nat) (c : Nat) (d : Int × Int) : Prop :=
  inBounds ((i2p c).x + d.1) ((i2p c).y + d.2) →
  g ((i2p c).y + d.2) ((i2p c).x + d.1) ≠ '1' →
    p2i ((i2p c).x + d.1) ((i2p c).y + d.2) ∈ q ∧
    lev (p2i ((i2p c).x + d.1) ((i2p c).y + d.2)) ≤ lev c + 1

/-- The invariant of the search loop for the source `(ex, ey)`: `h` entries of
the queue `q` are fully expanded and `lev` is the depth in the predecessor
tree. -/
structure BfsInv (g : Grid) (ex ey : Int) (par : Int → Int → Nat) (q : List Nat) (h : Nat)
    (lev : Nat → Nat) : Prop where
  nodup : q.Nodup
  lt : ∀ c ∈ q, c < NCELLS
  vis : ∀ x y, inBounds x y → (par y x ≠ NO_VISIT ↔ p2i x y ∈ q)
  src_mem : p2i ex ey ∈ q
  src_par : par ey ex = p2i ex ey
  src_lev : lev (p2i ex ey) = 0
  tree : ∀ c ∈ q, c ≠ p2i ex ey →
    freeCell g (i2p c) ∧ par (i2p c).y (i2p c).x ∈ q ∧
    adj4 (i2p (par (i2p c).y (i2p c).x)) (i2p c) ∧
    lev c = lev (par (i2p c).y (i2p c).x) + 1
  mono : q.Pairwise (fun a b => lev a ≤ lev b)
  near : ∀ c ∈ q, ∀ u ∈ q.drop h, lev c ≤ lev u + 1
  lev_lt : ∀ c ∈ q, lev c < q.length
  closed : ∀ c ∈ q.take h, ∀ d ∈ DIRS, Handled g q lev c d
  h_le : h ≤ q.length

/-- The search loop has ended on the table `par`: either the queue is
exhausted, or the entry read last is the target index `dstI`. -/
def BfsDone (g : Grid) (ex ey : Int) (dstI : Nat) (par : Int → Int → Nat) : Prop :=
  ∃ q h lev, BfsInv g ex ey par q h lev ∧ (q.length ≤ h ∨ (h < q.length ∧ q.getD h 0 = dstI))

/-- The grid that `bfsNextStep` reads inside `moveEnemy`: the cells of the
player and of the enemy cleared to `'0'`. -/
def searchGrid (s : State) : Grid :=
  setCell (setCell s.grid s.player.y s.player.x '0') s.enemy.y s.enemy.x '0'

/-- The grid invariant of an active session. -/
structure GridInv (s : State) : Prop where
  player_in : inBounds s.player.x s.player.y
  enemy_in : inBounds s.enemy.x s.enemy.y
  distinct : s.player ≠ s.enemy
  cellA : ∀ x y, inBounds x y → (s.grid y x = 'A' ↔ (x = s.player.x ∧ y = s.player.y))
  cellP : ∀ x y, inBounds x y → (s.grid y x = 'P' ↔ (x = s.enemy.x ∧ y = s.enemy.y))
  walls : ∀ x y, inBounds x y → (s.grid y x = '1' ↔ mazeTpl y x = '1')

/-- The states the program can be in at the start of a call of `loop`: the one
left by `initGame` at the end of `setup` (from any earlier contents of the
globals, at any time), and those left by calls of `loop` on any inputs. -/
inductive Reach : State → Prop
  | init (s0 : State) (now : Nat) : Reach (initGame s0 now)
  | step {s t : State} (i : Input) : Reach s → loop s i = some t → Reach t

/-- Successive calls of `loop`, one per input. -/
def run (s : State) : List Input → Option State
  | [] => some s
  | i :: is => (loop s i).bind fun t => run t is

/-! ## Concrete instances -/

/-- A grid without walls. -/
def openGrid : Grid := fun _ _ => '0'

/-- A grid whose only non-wall cell is `(0, 0)`. -/
def sealedGrid : Grid := fun r c => if r = 0 ∧ c = 0 then '0' else '1'

/-- A state with the player at the corner `(0, 0)` of an open grid and the
enemy at `(1, 0)`. -/
def cornerState : State :=
  { grid := fun r c => if r = 0 ∧ c = 0 then 'A' else if r = 0 ∧ c = 1 then 'P' else '0',
    player := ⟨0, 0⟩, enemy := ⟨1, 0⟩, gameState := GState.PLAYING,
    startTime := 0, surviveTime := 0, lastPlayer := 0, lastEnemy := 0 }

/-- A state whose grid is all wall except the enemy at `(0, 0)` and the player
at `(5, 5)`. -/
def sealedState : State :=
  { grid := fun r c => if r = 0 ∧ c = 0 then 'P' else if r = 5 ∧ c = 5 then 'A' else '1',
    player := ⟨5, 5⟩, enemy := ⟨0, 0⟩, gameState := GState.PLAYING,
    startTime := 0, surviveTime := 0, lastPlayer := 0, lastEnemy := 0 }

/-- An input of `loop`: button released, joystick centred, all clocks at `1000`. -/
def idleInput : Input :=
  { sw := false, jx := 2048, jy := 2048, now := 1000, nowSpeed := 1000, nowEnd := 1000,
    nowInit := 1000 }

/-- The grid of scenario A: the 3x3 interior of a 5x5 area is open, every other
cell is a wall. -/
def boxGrid : Grid := fun r c => if 1 ≤ r ∧ r ≤ 3 ∧ 1 ≤ c ∧ c ≤ 3 then '0' else '1'

/-- The template `MAZE_TPL` as a grid. -/
def tplGrid : Grid := fun r c => mazeTpl r c

/-- A state in `GAME_OVER`: the enemy has caught the player on the cell
`(1, 1)` at time 21000 ms of a session started at 1000 ms. -/
def endedState : State :=
  { grid := setCell tplGrid 1 1 'P',
    player := ⟨1, 1⟩, enemy := ⟨1, 1⟩, gameState := GState.GAME_OVER,
    startTime := 1000, surviveTime := 20000, lastPlayer := 20900, lastEnemy := 21000 }

/-- An input of `loop` with the restart button pressed; `initGame` reads the
clock at 25300 ms. -/
def restartInput : Input :=
  { sw := true, jx := 2048, jy := 2048, now := 25000, nowSpeed := 25000, nowEnd := 25000,
    nowInit := 25300 }

/-- The search states after each pass of the `for d` loop over the offsets
`ds`, for the dequeued index `ci`, starting from `st`. -/
def visitTrace (g : Grid) (ci : Nat) : Bfs → List (Int × Int) → List Bfs
  | _, [] => []
  | st, d :: ds => visit g ci st d :: visitTrace g ci (visit g ci st d) ds

/-- Every search state that the loop `while (head < tail)` goes through, in
order: the state at each evaluation of the loop condition, the state after
`head++`, and the states after each pass of the `for d` loop. -/
def bfsTrace (g : Grid) (dstI : Nat) : Nat → Bfs → List Bfs
  | 0, st => [st]
  | fuel + 1, st =>
    if st.head < st.q.length then
      let ci := st.q.getD st.head 0
      let st1 : Bfs := { par := st.par, q := st.q, head := st.head + 1 }
      if ci = dstI then [st, st1]
      else st :: st1 :: (visitTrace g ci st1 DIRS ++ bfsTrace g dstI fuel (expand g ci st1))
    else [st]

/-- The successive values of `cur` in the back-walk `while (true)`, each of
which is used for the read `bfsPar[cp.y][cp.x]` with `cp = i2p(cur)`. -/
def walkTrace (par : Int → Int → Nat) (srcI : Nat) : Nat → Nat → List Nat
  | 0, _ => []
  | fuel + 1, cur =>
    let cp := i2p cur
    let p := par cp.y cp.x
    if p = srcI then [cur]
    else if p = cur then [cur]
    else cur :: walkTrace par srcI fuel p

/-- The search loop run on the template from the player spawn `(1, 1)` towards
the wall cell `(0, 0)`, which is never dequeued, so that the loop only ends
when the queue is exhausted. -/
def tplSearch : Option Bfs := bfsLoop tplGrid (p2i 0 0) (NCELLS + 1) (bfsInit 1 1)

/-- Every cell `'0'` of `MAZE_TPL` has been visited by `tplSearch`. -/
def tplAllVisited : Bool :=
  match tplSearch with
  | none => false
  | some st =>
    (List.range 16).all fun r => (List.range 32).all fun c =>
      mazeTpl r c != '0' || st.par r c != NO_VISIT

/-- The number of predecessor steps from the cell index `cur` back to the
source index `srcI` in the table `par`, within `fuel` steps. -/
def parDepth (par : Int → Int → Nat) (srcI : Nat) : Nat → Nat → Option Nat
  | 0, _ => none
  | fuel + 1, cur =>
    if cur = srcI then some 0
    else (parDepth par srcI fuel (par (i2p cur).y (i2p cur).x)).map fun k => k + 1

/-- The depth of the player spawn `(1, 1)` in the predecessor table that the
search loop builds on the template from the enemy spawn `(29, 13)`. -/
def spawnDepth : Option Nat :=
  (bfsLoop tplGrid (p2i 1 1) (NCELLS + 1) (bfsInit 29 13)).bind fun st =>
    parDepth st.par (p2i 29 13) NCELLS (p2i 1 1)

/-- The globals of the program before `setup`: everything zero. -/
def bootState : State :=
  { grid := fun _ _ => Char.ofNat 0, player := ⟨0, 0⟩, enemy := ⟨0, 0⟩,
    gameState := GState.PLAYING, startTime := 0, surviveTime := 0,
    lastPlayer := 0, lastEnemy := 0 }

/-- The input of the call number `k` of `loop` in a session in which `loop` is
called once per second from 2000 ms on, with the joystick centred and the
button released. -/
def tickInput (k : Nat) : Input :=
  { sw := false, jx := 2048, jy := 2048, now := 1000 * (k + 2), nowSpeed := 1000 * (k + 2),
    nowEnd := 1000 * (k + 2), nowInit := 1000 * (k + 2) }

/-- The first `n` inputs of that session. -/
def huntInputs (n : Nat) : List Input := (List.range n).map tickInput

/-- The state after `initGame` at 1000 ms and 43 calls of `loop` of that
session: the player has stayed on its spawn and the enemy has come next to it. -/
def huntState : State := (run (initGame bootState 1000) (huntInputs 43)).getD bootState

/-! ## Index arithmetic -/

theorem p2i_lt {x y : Int} (h : inBounds x y) : p2i x y < NCELLS := by
  simp only [inBounds, COLS, ROWS] at h
  simp only [p2i, toU16, COLS, NCELLS]
  omega

theorem i2p_p2i {x y : Int} (h : inBounds x y) : i2p (p2i x y) = ⟨x, y⟩ := by
  simp only [inBounds, COLS, ROWS] at h
  simp only [p2i, i2p, toU16, toInt8, COLS, Pos.mk.injEq]
  omega

theorem inBounds_i2p {c : Nat} (h : c < NCELLS) : inBounds (i2p c).x (i2p c).y := by
  simp only [NCELLS] at h
  simp only [inBounds, i2p, toInt8, COLS, ROWS]
  omega

theorem p2i_i2p {c : Nat} (h : c < NCELLS) : p2i (i2p c).x (i2p c).y = c := by
  simp only [NCELLS] at h
  simp only [p2i, i2p, toU16, toInt8, COLS]
  omega

theorem length_le_of_nodup {q : List Nat} (hn : q.Nodup) (hl : ∀ c ∈ q, c < NCELLS) :
    q.length ≤ NCELLS := by
  have hs : q ⊆ List.range NCELLS := fun c hc => List.mem_range.mpr (hl c hc)
  have := (hn.subperm hs).length_le
  simpa using this

/-! ## The search loop keeps its invariant -/

theorem visit_skip (g : Grid) (ci : Nat) (st : Bfs) (d : Int × Int)
    (h : ¬ (inBounds ((i2p ci).x + d.1) ((i2p ci).y + d.2) ∧
        g ((i2p ci).y + d.2) ((i2p ci).x + d.1) ≠ '1' ∧
        st.par ((i2p ci).y + d.2) ((i2p ci).x + d.1) = NO_VISIT)) :
    visit g ci st d = st := by
  simp only [visit]
  split_ifs with h1 h2 h3
  · rfl
  · rfl
  · rfl
  · exfalso
    apply h
    refine ⟨?_, h2, not_not.mp h3⟩
    simp only [inBounds]
    omega

theorem visit_new (g : Grid) (ci : Nat) (st : Bfs) (d : Int × Int)
    (hb : inBounds ((i2p ci).x + d.1) ((i2p ci).y + d.2))
    (hw : g ((i2p ci).y + d.2) ((i2p ci).x + d.1) ≠ '1')
    (hv : st.par ((i2p ci).y + d.2) ((i2p ci).x + d.1) = NO_VISIT) :
    visit g ci st d =
      { par := fun r c => if r = (i2p ci).y + d.2 ∧ c = (i2p ci).x + d.1 then ci else st.par r c,
        q := st.q ++ [p2i ((i2p ci).x + d.1) ((i2p ci).y + d.2)],
        head := st.head } := by
  simp only [visit]
  simp only [inBounds] at hb
  rw [if_neg (by omega), if_neg hw, if_neg (not_not.mpr hv)]

theorem Handled.extend {g : Grid} {q q1 : List Nat} {lev lev1 : Nat → Nat} {c : Nat}
    {d : Int × Int} (hH : Handled g q lev c d) (hc : c ∈ q) (hsub : ∀ a ∈ q, a ∈ q1)
    (hlev : ∀ a ∈ q, lev1 a = lev a) : Handled g q1 lev1 c d := by
  intro hb hw
  obtain ⟨h1, h2⟩ := hH hb hw
  refine ⟨hsub _ h1, ?_⟩
  rw [hlev _ h1, hlev _ hc]
  exact h2

theorem adj4_of_dir {c : Pos} {d : Int × Int} (hd : d ∈ DIRS) :
    adj4 c ⟨c.x + d.1, c.y + d.2⟩ := by
  simp only [DIRS, List.mem_cons, List.mem_singleton, List.not_mem_nil, or_false] at hd
  simp only [adj4]
  rcases hd with h | h | h | h <;> subst h <;> simp <;> omega

theorem mono_drop_head {lev : Nat → Nat} {q : List Nat} {h : Nat}
    (hm : q.Pairwise (fun a b => lev a ≤ lev b)) (hh : h < q.length) :
    ∀ u ∈ q.drop h, lev (q[h]) ≤ lev u := by
  intro u hu
  have hp : (q.drop h).Pairwise (fun a b => lev a ≤ lev b) :=
    hm.sublist (List.drop_sublist h q)
  rw [List.drop_eq_getElem_cons hh] at hp hu
  rcases List.mem_cons.mp hu with rfl | hu1
  · exact le_refl _
  · exact (List.pairwise_cons.mp hp).1 u hu1

/-- One neighbour pass keeps the invariant, only appends to the queue, keeps the
levels of the queued cells and leaves the neighbour handled. -/
theorem visit_inv {g : Grid} {ex ey : Int} {par : Int → Int → Nat} {q : List Nat} {h hd : Nat}
    {lev : Nat → Nat} {d : Int × Int}
    (I : BfsInv g ex ey par q h lev) (hh : h < q.length) (hdir : d ∈ DIRS) :
    ∃ lev1, BfsInv g ex ey (visit g q[h] ⟨par, q, hd⟩ d).par (visit g q[h] ⟨par, q, hd⟩ d).q h lev1 ∧
      (∀ c ∈ q, lev1 c = lev c) ∧ (∃ l, (visit g q[h] ⟨par, q, hd⟩ d).q = q ++ l) ∧
      (visit g q[h] ⟨par, q, hd⟩ d).head = hd ∧
      Handled g (visit g q[h] ⟨par, q, hd⟩ d).q lev1 q[h] d := by
  have hciq : q[h] ∈ q := List.getElem_mem hh
  have hcilt : q[h] < NCELLS := I.lt _ hciq
  have hcidrop : q[h] ∈ q.drop h := by
    rw [List.drop_eq_getElem_cons hh]; exact List.mem_cons_self _ _
  generalize hci : q[h] = ci at *
  by_cases hcase : inBounds ((i2p ci).x + d.1) ((i2p ci).y + d.2) ∧
        g ((i2p ci).y + d.2) ((i2p ci).x + d.1) ≠ '1' ∧
        par ((i2p ci).y + d.2) ((i2p ci).x + d.1) = NO_VISIT
  swap
  · rw [visit_skip g ci ⟨par, q, hd⟩ d hcase]
    refine ⟨lev, I, fun _ _ => rfl, ⟨[], by simp⟩, ?_, ?_⟩
    · rfl
    intro hb hw
    have hv : par ((i2p ci).y + d.2) ((i2p ci).x + d.1) ≠ NO_VISIT :=
      fun hv => hcase ⟨hb, hw, hv⟩
    have hm := (I.vis _ _ hb).mp hv
    exact ⟨hm, I.near _ hm _ hcidrop⟩
  · obtain ⟨hb, hw, hv⟩ := hcase
    rw [visit_new g ci ⟨par, q, hd⟩ d hb hw hv]
    simp only
    generalize hnx : (i2p ci).x + d.1 = nx at *
    generalize hny : (i2p ci).y + d.2 = ny at *
    have hwq : p2i nx ny ∉ q := fun hm => ((I.vis _ _ hb).mpr hm) hv
    have hwlt : p2i nx ny < NCELLS := p2i_lt hb
    have hiw : i2p (p2i nx ny) = ⟨nx, ny⟩ := i2p_p2i hb
    have hne : ∀ c ∈ q, c ≠ p2i nx ny := fun c hc he => hwq (he ▸ hc)
    have hpos : ∀ c ∈ q, ¬ ((i2p c).y = ny ∧ (i2p c).x = nx) := by
      intro c hc ⟨h1, h2⟩
      apply hne c hc
      have := p2i_i2p (I.lt c hc)
      rw [h1, h2] at this
      exact this.symm
    refine ⟨fun c => if c = p2i nx ny then lev ci + 1 else lev c, ?_, ?_, ⟨_, rfl⟩, trivial, ?_⟩
    · have hlev : ∀ c ∈ q, (if c = p2i nx ny then lev ci + 1 else lev c) = lev c :=
        fun c hc => if_neg (hne c hc)
      constructor
      · -- nodup
        exact List.Nodup.append I.nodup (List.nodup_singleton _)
          (by simpa using hwq)
      · -- lt
        intro c hc
        rcases List.mem_append.mp hc with hc | hc
        · exact I.lt c hc
        · rw [List.mem_singleton.mp hc]; exact hwlt
      · -- vis
        intro x y hxy
        by_cases he : y = ny ∧ x = nx
        · obtain ⟨rfl, rfl⟩ := he
          simp only [and_self, if_true, List.mem_append, List.mem_singleton, or_true, iff_true]
          simp only [NCELLS] at hcilt
          simp only [NO_VISIT]
          omega
        · rw [if_neg he, I.vis x y hxy, List.mem_append, List.mem_singleton]
          constructor
          · exact Or.inl
          · rintro (h1 | h1)
            · exact h1
            · exfalso
              apply he
              have h2 := i2p_p2i hxy
              rw [h1, hiw] at h2
              simp only [Pos.mk.injEq] at h2
              exact ⟨h2.2.symm, h2.1.symm⟩
      · exact List.mem_append_left _ I.src_mem
      · -- src_par
        have : ¬ (ey = ny ∧ ex = nx) := by
          rintro ⟨rfl, rfl⟩
          have := I.src_par
          rw [hv] at this
          exact hwq (this ▸ I.src_mem)
        rw [if_neg this]; exact I.src_par
      · rw [hlev _ I.src_mem]; exact I.src_lev
      · -- tree
        intro c hc hcs
        rcases List.mem_append.mp hc with hc | hc
        · obtain ⟨t1, t2, t3, t4⟩ := I.tree c hc hcs
          rw [if_neg (hpos c hc)]
          refine ⟨t1, List.mem_append_left _ t2, t3, ?_⟩
          rw [hlev c hc, hlev _ t2]; exact t4
        · have hc := List.mem_singleton.mp hc
          subst hc
          rw [hiw]
          simp only [and_self, if_true]
          refine ⟨⟨hb, hw⟩, List.mem_append_left _ hciq, ?_, ?_⟩
          · have := @adj4_of_dir (i2p ci) d hdir
            rw [hnx, hny] at this
            exact this
          · rw [hlev ci hciq]
      · -- mono
        rw [List.pairwise_append]
        refine ⟨?_, List.pairwise_singleton _ _, ?_⟩
        · refine I.mono.imp_of_mem ?_
          intro a b ha hb1 hab
          rw [hlev a ha, hlev b hb1]; exact hab
        · intro a ha b hb1
          rw [List.mem_singleton.mp hb1, hlev a ha]
          simp only [if_true]
          exact I.near a ha ci hcidrop
      · -- near
        intro c hc u hu
        rw [List.drop_append_of_le_length (le_of_lt hh)] at hu
        have hciu : ∀ u ∈ q.drop h, lev ci ≤ lev u := by
          intro u hu
          have := mono_drop_head I.mono hh u hu
          rw [hci] at this
          exact this
        rcases List.mem_append.mp hc with hc | hc <;> rcases List.mem_append.mp hu with hu | hu
        · rw [hlev c hc, hlev u (List.mem_of_mem_drop hu)]
          exact I.near c hc u hu
        · rw [hlev c hc, List.mem_singleton.mp hu]
          simp only [if_true]
          have := I.near c hc ci hcidrop
          omega
        · rw [List.mem_singleton.mp hc, hlev u (List.mem_of_mem_drop hu)]
          simp only [if_true]
          have := hciu u hu
          omega
        · rw [List.mem_singleton.mp hc, List.mem_singleton.mp hu]
          omega
      · -- lev_lt
        intro c hc
        rw [List.length_append, List.length_singleton]
        rcases List.mem_append.mp hc with hc | hc
        · rw [hlev c hc]
          have := I.lev_lt c hc
          omega
        · rw [List.mem_singleton.mp hc]
          simp only [if_true]
          have := I.lev_lt ci hciq
          omega
      · -- closed
        intro c hc d1 hd1
        rw [List.take_append_of_le_length (le_of_lt hh)] at hc
        exact (I.closed c hc d1 hd1).extend (List.mem_of_mem_take hc)
          (fun a ha => List.mem_append_left _ ha) hlev
      · rw [List.length_append]
        have := I.h_le
        omega
    · intro c hc
      exact if_neg (hne c hc)
    · intro _ _
      subst hnx hny
      refine ⟨by simp, ?_⟩
      simp only [if_true]
      rw [if_neg (hne ci hciq)]


/-- After the four neighbour passes the dequeued entry counts as expanded. -/
theorem BfsInv.advance {g : Grid} {ex ey : Int} {par : Int → Int → Nat} {q : List Nat} {h : Nat}
    {lev : Nat → Nat} (I : BfsInv g ex ey par q h lev) (hh : h < q.length)
    (hall : ∀ d ∈ DIRS, Handled g q lev q[h] d) : BfsInv g ex ey par q (h + 1) lev := by
  refine ⟨I.nodup, I.lt, I.vis, I.src_mem, I.src_par, I.src_lev, I.tree, I.mono, ?_, I.lev_lt,
    ?_, hh⟩
  · intro c hc u hu
    apply I.near c hc u
    rw [List.drop_eq_getElem_cons hh]
    exact List.mem_cons_of_mem _ hu
  · intro c hc d hd
    rw [List.take_succ, List.mem_append] at hc
    rcases hc with hc | hc
    · exact I.closed c hc d hd
    · rw [List.getElem?_eq_getElem hh] at hc
      simp only [Option.toList_some, List.mem_singleton] at hc
      subst hc
      exact hall d hd

theorem foldl_visit_inv {g : Grid} {ex ey : Int} {h : Nat} {ci : Nat} (ds : List (Int × Int)) :
    ∀ (done : List (Int × Int)) (st : Bfs) (lev : Nat → Nat),
      (∀ d ∈ ds, d ∈ DIRS) →
      BfsInv g ex ey st.par st.q h lev → st.q[h]? = some ci →
      (∀ d ∈ done, Handled g st.q lev ci d) →
      ∃ lev1, BfsInv g ex ey (ds.foldl (visit g ci) st).par (ds.foldl (visit g ci) st).q h lev1 ∧
        (ds.foldl (visit g ci) st).q[h]? = some ci ∧
        (ds.foldl (visit g ci) st).head = st.head ∧
        ∀ d ∈ done ++ ds, Handled g (ds.foldl (visit g ci) st).q lev1 ci d := by
  induction ds with
  | nil =>
    intro done st lev _ I hq hdone
    exact ⟨lev, I, hq, rfl, by simpa using hdone⟩
  | cons d ds ih =>
    intro done st lev hds I hq hdone
    obtain ⟨hh, hci⟩ := List.getElem?_eq_some.mp hq
    subst hci
    obtain ⟨par, q, hd⟩ := st
    simp only at I hq hdone hh
    obtain ⟨lev1, I1, hl1, ⟨l, hl⟩, hhd, hH⟩ :=
      @visit_inv g ex ey par q h hd lev d I hh (hds d (List.mem_cons_self _ _))
    have hq1 : (visit g q[h] ⟨par, q, hd⟩ d).q[h]? = some q[h] := by
      rw [hl, List.getElem?_append_left hh]
      exact List.getElem?_eq_getElem hh
    have hdone1 : ∀ d1 ∈ done ++ [d], Handled g (visit g q[h] ⟨par, q, hd⟩ d).q lev1 q[h] d1 := by
      intro d1 hd1
      rcases List.mem_append.mp hd1 with hd1 | hd1
      · refine (hdone d1 hd1).extend (List.getElem_mem hh) ?_ hl1
        intro a ha
        rw [hl]
        exact List.mem_append_left _ ha
      · rw [List.mem_singleton.mp hd1]
        exact hH
    obtain ⟨lev2, I2, hq2, hhd2, hH2⟩ :=
      ih (done ++ [d]) (visit g q[h] ⟨par, q, hd⟩ d) lev1
        (fun d1 hd1 => hds d1 (List.mem_cons_of_mem _ hd1)) I1 hq1 hdone1
    refine ⟨lev2, ?_, ?_, ?_, ?_⟩
    · exact I2
    · exact hq2
    · rw [List.foldl_cons, hhd2, hhd]
    · intro d1 hd1
      apply hH2
      simpa using hd1

theorem expand_inv {g : Grid} {ex ey : Int} {st : Bfs} {h : Nat} {lev : Nat → Nat} {ci : Nat}
    (I : BfsInv g ex ey st.par st.q h lev) (hq : st.q[h]? = some ci) :
    ∃ lev1, BfsInv g ex ey (expand g ci st).par (expand g ci st).q (h + 1) lev1 ∧
      (expand g ci st).head = st.head := by
  obtain ⟨lev1, I1, hq1, hhd, hH⟩ :=
    @foldl_visit_inv g ex ey h ci DIRS [] st lev
      (fun _ hd => hd) I hq (by simp)
  obtain ⟨hh, hci⟩ := List.getElem?_eq_some.mp hq1
  refine ⟨lev1, ?_, hhd⟩
  apply I1.advance hh
  intro d hd
  have := hH d (by simpa using hd)
  rw [hci]
  exact this

theorem bfsInit_inv (g : Grid) {ex ey : Int} (hs : inBounds ex ey) :
    BfsInv g ex ey (bfsInit ex ey).par (bfsInit ex ey).q 0 (fun _ => 0) := by
  have hlt := p2i_lt hs
  simp only [bfsInit]
  constructor
  · exact List.nodup_singleton _
  · intro c hc
    rw [List.mem_singleton.mp hc]; exact hlt
  · intro x y hxy
    rw [List.mem_singleton]
    constructor
    · intro hne
      by_cases he : y = ey ∧ x = ex
      · rw [he.1, he.2]
      · rw [if_neg he] at hne
        exact absurd rfl hne
    · intro he
      have h1 := i2p_p2i hxy
      rw [he, i2p_p2i hs] at h1
      simp only [Pos.mk.injEq] at h1
      rw [if_pos ⟨h1.2.symm, h1.1.symm⟩]
      simp only [NCELLS] at hlt
      simp only [NO_VISIT]
      omega
  · exact List.mem_singleton_self _
  · simp
  · rfl
  · intro c hc hne
    exact absurd (List.mem_singleton.mp hc) hne
  · exact List.pairwise_singleton _ _
  · intro _ _ _ _
    exact Nat.le_succ _
  · intro _ _
    simp
  · intro c hc
    simp at hc
  · exact Nat.zero_le _

/-- The search loop ends within `NCELLS + 1` evaluations of its condition. -/
theorem bfsLoop_done {g : Grid} {ex ey : Int} (dstI : Nat) :
    ∀ (fuel : Nat) (st : Bfs) (lev : Nat → Nat),
      BfsInv g ex ey st.par st.q st.head lev → NCELLS + 1 ≤ fuel + st.head →
      ∃ st1, bfsLoop g dstI fuel st = some st1 ∧ BfsDone g ex ey dstI st1.par := by
  intro fuel
  induction fuel with
  | zero =>
    intro st lev I hf
    have h1 := I.h_le
    have h2 := length_le_of_nodup I.nodup I.lt
    simp only [NCELLS] at hf h2
    omega
  | succ fuel ih =>
    intro st lev I hf
    simp only [bfsLoop]
    by_cases hh : st.head < st.q.length
    · rw [if_pos hh]
      by_cases hc : st.q.getD st.head 0 = dstI
      · rw [if_pos hc]
        exact ⟨_, rfl, st.q, st.head, lev, I, Or.inr ⟨hh, hc⟩⟩
      · rw [if_neg hc]
        have hq : st.q[st.head]? = some (st.q.getD st.head 0) := by
          rw [List.getD_eq_getElem?_getD, List.getElem?_eq_getElem hh]
          rfl
        obtain ⟨lev1, I1, hhd⟩ :=
          @expand_inv g ex ey ⟨st.par, st.q, st.head + 1⟩ st.head lev (st.q.getD st.head 0) I hq
        simp only at hhd
        apply ih (expand g (st.q.getD st.head 0) ⟨st.par, st.q, st.head + 1⟩) lev1
        · rw [hhd]
          exact I1
        rw [hhd]
        simp only [NCELLS] at hf ⊢
        omega
    · rw [if_neg hh]
      exact ⟨_, rfl, st.q, st.head, lev, I, Or.inl (not_lt.mp hh)⟩

/-! ## Walks and the predecessor tree -/

theorem dir_of_adj4 {a b : Pos} (h : adj4 a b) :
    ∃ d ∈ DIRS, b = ⟨a.x + d.1, a.y + d.2⟩ := by
  obtain ⟨bx, bY⟩ := b
  simp only [adj4] at h
  simp only [DIRS, List.mem_cons, List.mem_singleton, List.not_mem_nil, or_false,
    Pos.mk.injEq]
  rcases h with ⟨h1, h2⟩ | ⟨h1, h2⟩ | ⟨h1, h2⟩ | ⟨h1, h2⟩
  · exact ⟨(1, 0), by simp, by simp [h1, h2]⟩
  · exact ⟨(-1, 0), by simp, by simp [h1, h2]; omega⟩
  · exact ⟨(0, 1), by simp, by simp [h1, h2]⟩
  · exact ⟨(0, -1), by simp, by simp [h1, h2]; omega⟩

theorem Walk.inBounds_end {g : Grid} {a b : Pos} {n : Nat} (w : Walk g a b n)
    (ha : inBounds a.x a.y) : inBounds b.x b.y := by
  cases w with
  | nil => exact ha
  | snoc _ _ hf => exact hf.1

theorem Walk.trans {g : Grid} {a b c : Pos} {m n : Nat} (w1 : Walk g a b m)
    (w2 : Walk g b c n) : Walk g a c (m + n) := by
  induction w2 with
  | nil => exact w1
  | snoc _ hadj hf ih => exact Walk.snoc ih hadj hf

theorem Walk.eq_of_zero {g : Grid} {a b : Pos} (w : Walk g a b 0) : b = a := by
  cases w
  rfl

/-- Every queued cell is reached by a walk whose length is its level. -/
theorem BfsInv.walk_of_mem {g : Grid} {ex ey : Int} {par : Int → Int → Nat} {q : List Nat}
    {h : Nat} {lev : Nat → Nat} (I : BfsInv g ex ey par q h lev) (hs : inBounds ex ey) :
    ∀ (n c : Nat), c ∈ q → lev c = n → Walk g ⟨ex, ey⟩ (i2p c) n := by
  intro n
  induction n with
  | zero =>
    intro c hc hl
    by_cases he : c = p2i ex ey
    · rw [he, i2p_p2i hs]
      exact Walk.nil
    · have := (I.tree c hc he).2.2.2
      omega
  | succ n ih =>
    intro c hc hl
    have he : c ≠ p2i ex ey := by
      intro he
      rw [he, I.src_lev] at hl
      omega
    obtain ⟨t1, t2, t3, t4⟩ := I.tree c hc he
    exact Walk.snoc (ih _ t2 (by omega)) t3 t1

/-- A cell reached by a walk of `n` steps is queued at level at most `n`,
unless an entry not yet expanded already has level at most `n`. -/
theorem BfsInv.mem_of_walk {g : Grid} {ex ey : Int} {par : Int → Int → Nat} {q : List Nat}
    {h : Nat} {lev : Nat → Nat} (I : BfsInv g ex ey par q h lev) (hs : inBounds ex ey)
    {c : Pos} {n : Nat} (w : Walk g ⟨ex, ey⟩ c n) :
    (p2i c.x c.y ∈ q ∧ lev (p2i c.x c.y) ≤ n) ∨ ∃ u ∈ q.drop h, lev u ≤ n := by
  induction w with
  | nil => exact Or.inl ⟨I.src_mem, by rw [I.src_lev]⟩
  | @snoc b c n w hadj hf ih =>
    rcases ih with ⟨hb, hl⟩ | ⟨u, hu, hl⟩
    · have hbb : inBounds b.x b.y := w.inBounds_end hs
      have hsplit : p2i b.x b.y ∈ q.take h ++ q.drop h := by
        rw [List.take_append_drop]; exact hb
      rcases List.mem_append.mp hsplit with ht | hdr
      · obtain ⟨d, hd, hc⟩ := dir_of_adj4 hadj
        have hH := I.closed _ ht d hd
        unfold Handled at hH
        rw [i2p_p2i hbb] at hH
        subst hc
        obtain ⟨h1, h2⟩ := hH hf.1 hf.2
        simp only at h1 h2 ⊢
        exact Or.inl ⟨h1, by omega⟩
      · exact Or.inr ⟨_, hdr, by omega⟩
    · exact Or.inr ⟨u, hu, by omega⟩

/-- When the loop has ended, a target reached by a walk of `n` steps is queued
at level at most `n`. -/
theorem BfsDone.dst_mem {g : Grid} {ex ey px py : Int} {par : Int → Int → Nat}
    (D : BfsDone g ex ey (p2i px py) par) (hs : inBounds ex ey) :
    ∃ q h lev, BfsInv g ex ey par q h lev ∧
      ∀ n, Walk g ⟨ex, ey⟩ ⟨px, py⟩ n → p2i px py ∈ q ∧ lev (p2i px py) ≤ n := by
  obtain ⟨q, h, lev, I, hend⟩ := D
  refine ⟨q, h, lev, I, ?_⟩
  intro n w
  rcases I.mem_of_walk hs w with hl | ⟨u, hu, hl⟩
  · exact hl
  · rcases hend with hex | ⟨hh, hd⟩
    · rw [List.drop_eq_nil_of_le hex] at hu
      simp at hu
    · have hq : q[h] = p2i px py := by
        rw [← hd, List.getD_eq_getElem?_getD, List.getElem?_eq_getElem hh]
        rfl
      have hm := mono_drop_head I.mono hh u hu
      rw [hq] at hm
      refine ⟨hq ▸ List.getElem_mem hh, by omega⟩

/-- The back-walk from a queued cell `c` ends, within `lev c + 1` iterations,
through the exit `par == srcI`, at the ancestor of `c` next to the source. -/
theorem walkBack_spec {g : Grid} {ex ey : Int} {par : Int → Int → Nat} {q : List Nat}
    {h : Nat} {lev : Nat → Nat} (I : BfsInv g ex ey par q h lev) (hs : inBounds ex ey) :
    ∀ (fuel c : Nat), c ∈ q → lev c < fuel →
      ∃ r, walkBack par (p2i ex ey) fuel c = some (i2p r) ∧ r ∈ q ∧
        par (i2p r).y (i2p r).x = p2i ex ey ∧
        (c = p2i ex ey → r = c) ∧
        (c ≠ p2i ex ey → r ≠ p2i ex ey ∧ Walk g (i2p r) (i2p c) (lev c - 1)) := by
  intro fuel
  induction fuel with
  | zero => intro c _ hl; omega
  | succ fuel ih =>
    intro c hc hl
    simp only [walkBack]
    by_cases hp : par (i2p c).y (i2p c).x = p2i ex ey
    · rw [if_pos hp]
      refine ⟨c, rfl, hc, hp, fun _ => rfl, fun hne => ⟨hne, ?_⟩⟩
      have h4 := (I.tree c hc hne).2.2.2
      rw [hp, I.src_lev] at h4
      rw [h4]
      exact Walk.nil
    · rw [if_neg hp]
      have hne : c ≠ p2i ex ey := by
        intro he
        apply hp
        rw [he, i2p_p2i hs]
        exact I.src_par
      obtain ⟨t1, t2, t3, t4⟩ := I.tree c hc hne
      have hpc : par (i2p c).y (i2p c).x ≠ c := by
        intro he
        rw [he] at t4
        omega
      rw [if_neg hpc]
      obtain ⟨r, hw, hr, hpar, _, h5⟩ := ih _ t2 (by omega)
      obtain ⟨h6, h7⟩ := h5 hp
      refine ⟨r, hw, hr, hpar, fun he => absurd he hne, fun _ => ⟨h6, ?_⟩⟩
      have h8 := (I.tree _ t2 hp).2.2.2
      have h9 : lev c - 1 = lev (par (i2p c).y (i2p c).x) - 1 + 1 := by omega
      rw [h9]
      exact Walk.snoc h7 t3 t1

/-- What `bfsNextStep` answers for an in-bounds query, for every sufficient
fuel. The search loop ends on a table `st.par`. When the target entry is
`NO_VISIT` the answer is the sentinel and the target cannot be reached.
Otherwise the answer is an in-bounds cell: the source itself when source and
target coincide, and else a free neighbour of the source from which the target
is one step nearer. -/
theorem bfsNextStepFuel_spec (g : Grid) {ex ey px py : Int} (hs : inBounds ex ey)
    (hp : inBounds px py) (fuel : Nat) (hf : NCELLS + 1 ≤ fuel) :
    ∃ st r, bfsLoop g (p2i px py) fuel (bfsInit ex ey) = some st ∧
      bfsNextStepFuel fuel g ex ey px py = some r ∧
      ((st.par py px = NO_VISIT ∧ r = ⟨-1, -1⟩ ∧ ¬ Reachable g ⟨ex, ey⟩ ⟨px, py⟩) ∨
       (st.par py px ≠ NO_VISIT ∧ inBounds r.x r.y ∧ ∃ d, IsDist g ⟨ex, ey⟩ ⟨px, py⟩ d ∧
          ((ex = px ∧ ey = py) → r = ⟨ex, ey⟩) ∧
          (¬ (ex = px ∧ ey = py) →
            freeCell g r ∧ adj4 ⟨ex, ey⟩ r ∧ r ≠ ⟨ex, ey⟩ ∧ Walk g r ⟨px, py⟩ (d - 1)))) := by
  obtain ⟨st1, hloop, D⟩ :=
    bfsLoop_done (p2i px py) fuel (bfsInit ex ey) _ (bfsInit_inv g hs)
      (by simp only [bfsInit]; omega)
  obtain ⟨q, h, lev, I, hw⟩ := D.dst_mem hs
  refine ⟨st1, ?_⟩
  unfold bfsNextStepFuel
  rw [hloop]
  simp only
  by_cases hv : st1.par py px = NO_VISIT
  · rw [if_pos hv]
    refine ⟨_, trivial, rfl, Or.inl ⟨hv, rfl, ?_⟩⟩
    rintro ⟨n, w⟩
    exact ((I.vis _ _ hp).mpr (hw n w).1) hv
  · rw [if_neg hv]
    have hm := (I.vis _ _ hp).mp hv
    have hlt : lev (p2i px py) < fuel := by
      have h1 := I.lev_lt _ hm
      have h2 := length_le_of_nodup I.nodup I.lt
      omega
    obtain ⟨r, hwb, hr, hpar, h1, h2⟩ := walkBack_spec I hs fuel _ hm hlt
    have hwalk := I.walk_of_mem hs _ _ hm rfl
    rw [i2p_p2i hp] at hwalk
    refine ⟨i2p r, trivial, hwb, Or.inr ⟨hv, inBounds_i2p (I.lt r hr), lev (p2i px py),
      ⟨hwalk, fun n w => (hw n w).2⟩, ?_, ?_⟩⟩
    · rintro ⟨rfl, rfl⟩
      rw [h1 rfl, i2p_p2i hs]
    · intro hne
      have hne1 : p2i px py ≠ p2i ex ey := by
        intro he
        apply hne
        have h3 := i2p_p2i hp
        rw [he, i2p_p2i hs] at h3
        simp only [Pos.mk.injEq] at h3
        exact h3
      obtain ⟨h3, h4⟩ := h2 hne1
      obtain ⟨t1, _, t3, _⟩ := I.tree r hr h3
      rw [hpar, i2p_p2i hs] at t3
      rw [i2p_p2i hp] at h4
      refine ⟨t1, t3, ?_, h4⟩
      intro he
      apply h3
      have h5 := p2i_i2p (I.lt r hr)
      rw [he] at h5
      exact h5.symm

/-- The answer of `bfsNextStep` for an in-bounds query (see
`bfsNextStepFuel_spec`). -/
theorem bfsNextStep_spec (g : Grid) {ex ey px py : Int} (hs : inBounds ex ey)
    (hp : inBounds px py) :
    ∃ r, bfsNextStep g ex ey px py = some r ∧
      ((r = ⟨-1, -1⟩ ∧ ¬ Reachable g ⟨ex, ey⟩ ⟨px, py⟩) ∨
       (inBounds r.x r.y ∧ ∃ d, IsDist g ⟨ex, ey⟩ ⟨px, py⟩ d ∧
          ((ex = px ∧ ey = py) → r = ⟨ex, ey⟩) ∧
          (¬ (ex = px ∧ ey = py) →
            freeCell g r ∧ adj4 ⟨ex, ey⟩ r ∧ r ≠ ⟨ex, ey⟩ ∧ Walk g r ⟨px, py⟩ (d - 1)))) := by
  obtain ⟨st, r, _, hr, hcase⟩ := bfsNextStepFuel_spec g hs hp (NCELLS + 1) (le_refl _)
  refine ⟨r, hr, ?_⟩
  rcases hcase with ⟨_, h1, h2⟩ | ⟨_, h1⟩
  · exact Or.inl ⟨h1, h2⟩
  · exact Or.inr h1

theorem IsDist.unique {g : Grid} {a b : Pos} {d1 d2 : Nat} (h1 : IsDist g a b d1)
    (h2 : IsDist g a b d2) : d1 = d2 :=
  le_antisymm (h1.2 _ h2.1) (h2.2 _ h1.1)

/-- The step answered for distinct cells at distance `d`, from a free source. -/
theorem bfsNextStep_step (g : Grid) {e p : Pos} {d : Nat} (he : inBounds e.x e.y)
    (hp : inBounds p.x p.y) (hne : e ≠ p) (hd : IsDist g e p d) :
    ∃ r, bfsNextStep g e.x e.y p.x p.y = some r ∧ freeCell g r ∧ adj4 e r ∧
      1 ≤ d ∧ IsDist g r p (d - 1) := by
  obtain ⟨ex, ey⟩ := e
  obtain ⟨px, py⟩ := p
  simp only at he hp
  obtain ⟨r, hr, hcase⟩ := bfsNextStep_spec g he hp
  refine ⟨r, hr, ?_⟩
  rcases hcase with ⟨_, hnr⟩ | ⟨_, d1, hd1, _, h2⟩
  · exact absurd ⟨d, hd.1⟩ hnr
  · have hdd := hd.unique hd1
    subst hdd
    have hne1 : ¬ (ex = px ∧ ey = py) := by
      rintro ⟨rfl, rfl⟩
      exact hne rfl
    obtain ⟨hf, hadj, _, hw⟩ := h2 hne1
    have hd1 : 1 ≤ d := by
      rcases Nat.eq_zero_or_pos d with h0 | h0
      · subst h0
        exact absurd hd.1.eq_of_zero.symm hne
      · exact h0
    refine ⟨hf, hadj, hd1, hw, ?_⟩
    intro n w
    have w1 : Walk g ⟨ex, ey⟩ r 1 := Walk.snoc Walk.nil hadj hf
    have := hd.2 _ (w1.trans w)
    omega


theorem IsDist.exists_of_reachable {g : Grid} {a b : Pos} (h : Reachable g a b) :
    ∃ d, IsDist g a b d := by
  classical
  exact ⟨Nat.find h, Nat.find_spec h, fun m wm => Nat.find_min' h wm⟩

theorem IsDist.ne_of_pos {g : Grid} {a b : Pos} {d : Nat} (h : IsDist g a b d) (hd : 0 < d) :
    a ≠ b := by
  rintro rfl
  have := h.2 0 Walk.nil
  omega

/-- Iterating the step `k ≤ d` times from a cell at distance `d` arrives at a
cell at distance `d - k`. -/
theorem chase_dist (g : Grid) (p : Pos) (hp : inBounds p.x p.y) :
    ∀ (k d : Nat) (e : Pos), inBounds e.x e.y → IsDist g e p d → k ≤ d →
      ∃ c, chase g p k e = some c ∧ inBounds c.x c.y ∧ IsDist g c p (d - k) := by
  intro k
  induction k with
  | zero =>
    intro d e he hd _
    exact ⟨e, rfl, he, hd⟩
  | succ k ih =>
    intro d e he hd hk
    obtain ⟨r, hr, hf, _, _, hd1⟩ := bfsNextStep_step g he hp (hd.ne_of_pos (by omega)) hd
    obtain ⟨c, hc, hcb, hcd⟩ := ih (d - 1) r hf.1 hd1 (by omega)
    refine ⟨c, ?_, hcb, ?_⟩
    · simp only [chase, hr, Option.some_bind]
      exact hc
    · have : d - (k + 1) = d - 1 - k := by omega
      rw [this]
      exact hcd

/-! ## The fuel is immaterial -/

theorem bfsLoop_fuel_succ (g : Grid) (dstI : Nat) :
    ∀ (fuel : Nat) (st r : Bfs), bfsLoop g dstI fuel st = some r →
      bfsLoop g dstI (fuel + 1) st = some r := by
  intro fuel
  induction fuel with
  | zero =>
    intro st r h
    simp [bfsLoop] at h
  | succ fuel ih =>
    intro st r h
    rw [bfsLoop] at h ⊢
    by_cases hh : st.head < st.q.length
    · rw [if_pos hh] at h ⊢
      by_cases hc : st.q.getD st.head 0 = dstI
      · simp only [if_pos hc] at h ⊢
        exact h
      · simp only [if_neg hc] at h ⊢
        exact ih _ _ h
    · rw [if_neg hh] at h ⊢
      exact h

theorem bfsLoop_fuel_le (g : Grid) (dstI : Nat) {fuel fuel1 : Nat} (hle : fuel ≤ fuel1)
    {st r : Bfs} (h : bfsLoop g dstI fuel st = some r) : bfsLoop g dstI fuel1 st = some r := by
  induction hle with
  | refl => exact h
  | step _ ih => exact bfsLoop_fuel_succ g dstI _ _ _ ih

theorem walkBack_fuel_succ (par : Int → Int → Nat) (srcI : Nat) :
    ∀ (fuel cur : Nat) (r : Pos), walkBack par srcI fuel cur = some r →
      walkBack par srcI (fuel + 1) cur = some r := by
  intro fuel
  induction fuel with
  | zero =>
    intro cur r h
    simp [walkBack] at h
  | succ fuel ih =>
    intro cur r h
    rw [walkBack] at h ⊢
    by_cases h1 : par (i2p cur).y (i2p cur).x = srcI
    · simp only [if_pos h1] at h ⊢
      exact h
    · simp only [if_neg h1] at h ⊢
      by_cases h2 : par (i2p cur).y (i2p cur).x = cur
      · simp only [if_pos h2] at h ⊢
        exact h
      · simp only [if_neg h2] at h ⊢
        exact ih _ _ h

theorem walkBack_fuel_le (par : Int → Int → Nat) (srcI : Nat) {fuel fuel1 : Nat}
    (hle : fuel ≤ fuel1) {cur : Nat} {r : Pos} (h : walkBack par srcI fuel cur = some r) :
    walkBack par srcI fuel1 cur = some r := by
  induction hle with
  | refl => exact h
  | step _ ih => exact walkBack_fuel_succ par srcI _ _ _ ih

/-- More fuel than `NCELLS + 1` does not change the answer for an in-bounds
query: both loops of `bfsNextStep` have ended by then. -/
theorem bfsNextStepFuel_eq (g : Grid) {ex ey px py : Int} (hs : inBounds ex ey)
    (hp : inBounds px py) (fuel : Nat) (hf : NCELLS + 1 ≤ fuel) :
    bfsNextStepFuel fuel g ex ey px py = bfsNextStep g ex ey px py := by
  obtain ⟨st, r, hst, hr, _⟩ := bfsNextStepFuel_spec g hs hp (NCELLS + 1) (le_refl _)
  unfold bfsNextStep
  rw [hr]
  unfold bfsNextStepFuel at hr ⊢
  rw [hst] at hr
  rw [bfsLoop_fuel_le g _ hf hst]
  simp only at hr ⊢
  by_cases hv : st.par py px = NO_VISIT
  · rw [if_pos hv] at hr ⊢
    exact hr
  · rw [if_neg hv] at hr ⊢
    exact walkBack_fuel_le _ _ hf hr

/-! ## Claims on the pathfinder -/

/-- C1: for in-bounds cells `e ≠ p` with `e` not a wall and `p` reachable from
`e`, `bfsNextStep` returns an in-bounds non-wall cell `r` that is 4-adjacent to
`e` and whose shortest-path distance to `p` is exactly one less than the
distance `d` of `e`; iterating `bfsNextStep` from `e` is at `p` after exactly
`d` steps and not earlier. -/
theorem bfsNextStep_shortest (g : Grid) (e p : Pos) (he : inBounds e.x e.y)
    (hp : inBounds p.x p.y) (hne : e ≠ p) (hfree : g e.y e.x ≠ '1')
    (hreach : Reachable g e p) :
    ∃ r d, bfsNextStep g e.x e.y p.x p.y = some r ∧
      inBounds r.x r.y ∧ g r.y r.x ≠ '1' ∧ adj4 e r ∧
      IsDist g e p d ∧ 1 ≤ d ∧ IsDist g r p (d - 1) ∧
      chase g p d e = some p ∧ ∀ k, k < d → chase g p k e ≠ some p := by
  have _ := hfree
  obtain ⟨d, hd⟩ := IsDist.exists_of_reachable hreach
  obtain ⟨r, hr, hf, hadj, h1, hd1⟩ := bfsNextStep_step g he hp hne hd
  refine ⟨r, d, hr, hf.1, hf.2, hadj, hd, h1, hd1, ?_, ?_⟩
  · obtain ⟨c, hc, _, hcd⟩ := chase_dist g p hp d d e he hd (le_refl _)
    rw [Nat.sub_self] at hcd
    rw [hc, hcd.1.eq_of_zero]
  · intro k hk
    obtain ⟨c, hc, _, hcd⟩ := chase_dist g p hp k d e he hd (le_of_lt hk)
    rw [hc]
    intro h
    have hcp : c = p := Option.some.inj h
    exact hcd.ne_of_pos (by omega) hcp

/-- Instance on the open grid: enemy at `(0, 0)`, player at `(1, 0)`. -/
theorem bfsNextStep_shortest_witness :
    Reachable openGrid ⟨0, 0⟩ ⟨1, 0⟩ ∧
    ∃ r d, bfsNextStep openGrid 0 0 1 0 = some r ∧
      inBounds r.x r.y ∧ openGrid r.y r.x ≠ '1' ∧ adj4 ⟨0, 0⟩ r ∧
      IsDist openGrid ⟨0, 0⟩ ⟨1, 0⟩ d ∧ 1 ≤ d ∧ IsDist openGrid r ⟨1, 0⟩ (d - 1) ∧
      chase openGrid ⟨1, 0⟩ d ⟨0, 0⟩ = some ⟨1, 0⟩ ∧
      ∀ k, k < d → chase openGrid ⟨1, 0⟩ k ⟨0, 0⟩ ≠ some ⟨1, 0⟩ :=
  have hreach : Reachable openGrid ⟨0, 0⟩ ⟨1, 0⟩ :=
    ⟨1, Walk.snoc Walk.nil (Or.inl ⟨rfl, rfl⟩) ⟨by decide, by decide⟩⟩
  ⟨hreach, bfsNextStep_shortest openGrid ⟨0, 0⟩ ⟨1, 0⟩ (by decide) (by decide) (by decide)
    (by decide) hreach⟩

/-- C2: for in-bounds cells `e` and `p`, `bfsNextStep` returns the sentinel
`(-1, -1)` exactly when the entry of `p` in the predecessor table is still
`NO_VISIT` after the search loop, and that is exactly when no 4-connected walk
leads from `e` to `p` through non-wall cells after the start. -/
theorem bfsNextStep_sentinel_iff (g : Grid) (e p : Pos) (he : inBounds e.x e.y)
    (hp : inBounds p.x p.y) (hne : e ≠ p) :
    ∃ st r, bfsLoop g (p2i p.x p.y) (NCELLS + 1) (bfsInit e.x e.y) = some st ∧
      bfsNextStep g e.x e.y p.x p.y = some r ∧
      (r = ⟨-1, -1⟩ ↔ st.par p.y p.x = NO_VISIT) ∧
      (st.par p.y p.x = NO_VISIT ↔ ¬ Reachable g e p) := by
  have _ := hne
  obtain ⟨st, r, hst, hr, hcase⟩ := bfsNextStepFuel_spec g he hp (NCELLS + 1) (le_refl _)
  refine ⟨st, r, hst, hr, ?_⟩
  rcases hcase with ⟨h1, h2, h3⟩ | ⟨h1, h2, d, hd, _⟩
  · exact ⟨⟨fun _ => h1, fun _ => h2⟩, ⟨fun _ => h3, fun _ => h1⟩⟩
  · refine ⟨⟨fun h => ?_, fun h => absurd h h1⟩, ⟨fun h => absurd h h1, fun h => ?_⟩⟩
    · exfalso
      rw [h] at h2
      exact absurd h2 (by decide)
    · exact absurd ⟨d, hd.1⟩ h

/-- Instance on the sealed grid: enemy at `(0, 0)`, player at `(5, 5)`. -/
theorem bfsNextStep_sentinel_iff_witness :
    ∃ st r, bfsLoop sealedGrid (p2i 5 5) (NCELLS + 1) (bfsInit 0 0) = some st ∧
      bfsNextStep sealedGrid 0 0 5 5 = some r ∧
      (r = ⟨-1, -1⟩ ↔ st.par 5 5 = NO_VISIT) ∧
      (st.par 5 5 = NO_VISIT ↔ ¬ Reachable sealedGrid ⟨0, 0⟩ ⟨5, 5⟩) :=
  bfsNextStep_sentinel_iff sealedGrid ⟨0, 0⟩ ⟨5, 5⟩ (by decide) (by decide) (by decide)

/-! ## Grid accesses -/

theorem toInt8_of_inBounds {x y : Int} (h : inBounds x y) : toInt8 x = x ∧ toInt8 y = y := by
  simp only [inBounds, COLS, ROWS] at h
  simp only [toInt8]
  omega

theorem setCell_same (g : Grid) (r c : Int) (v : Char) : setCell g r c v r c = v :=
  if_pos ⟨rfl, rfl⟩

theorem setCell_other (g : Grid) {r c r1 c1 : Int} (v : Char) (h : ¬ (r1 = r ∧ c1 = c)) :
    setCell g r c v r1 c1 = g r1 c1 := if_neg h

theorem gridGet_of_inBounds (g : Grid) {r c : Int} (h : inBounds c r) :
    gridGet g r c = some (g r c) := if_pos h

theorem gridSet_of_inBounds (g : Grid) {r c : Int} (v : Char) (h : inBounds c r) :
    gridSet g r c v = some (setCell g r c v) := if_pos h

theorem gridGet_eq_some {g : Grid} {r c : Int} {v : Char} (h : gridGet g r c = some v) :
    inBounds c r ∧ g r c = v := by
  unfold gridGet at h
  by_cases hb : inBounds c r
  · rw [if_pos hb] at h
    exact ⟨hb, Option.some.inj h⟩
  · rw [if_neg hb] at h
    exact absurd h (by simp)

/-! ## Claims on `movePlayer` -/

/-- A rejected move leaves the state as it is. -/
theorem movePlayer_stay (s : State) (d : Pos)
    (h : ¬ inBounds (s.player.x + d.x) (s.player.y + d.y) ∨
      gridGet s.grid (s.player.y + d.y) (s.player.x + d.x) = some '1' ∨
      gridGet s.grid (s.player.y + d.y) (s.player.x + d.x) = some 'P') :
    movePlayer s d = some s := by
  unfold movePlayer
  by_cases hz : d.x = 0 ∧ d.y = 0
  · rw [if_pos hz]
  · rw [if_neg hz]
    simp only
    by_cases hb : inBounds (s.player.x + d.x) (s.player.y + d.y)
    · have hb1 := hb
      simp only [inBounds] at hb1
      rw [if_neg (by omega)]
      rcases h with h | h | h
      · exact absurd hb h
      · rw [h]
        simp
      · rw [h]
        simp
    · rw [if_pos]
      simp only [inBounds] at hb
      omega

/-- C4: when the candidate cell `player + d` is out of bounds, is a wall or
holds the enemy, `movePlayer` returns the state unchanged (player, enemy and
every grid cell), and it does so without any access outside the grid. -/
theorem movePlayer_rejected (s : State) (d : Pos)
    (h : ¬ inBounds (s.player.x + d.x) (s.player.y + d.y) ∨
      gridGet s.grid (s.player.y + d.y) (s.player.x + d.x) = some '1' ∨
      gridGet s.grid (s.player.y + d.y) (s.player.x + d.x) = some 'P') :
    movePlayer s d = some s :=
  movePlayer_stay s d h

/-- Instance at the grid edge: the player at `(0, 0)` pushed west. -/
theorem movePlayer_rejected_witness :
    ¬ inBounds (cornerState.player.x + (-1)) (cornerState.player.y + 0) ∧
    movePlayer cornerState ⟨-1, 0⟩ = some cornerState :=
  ⟨by decide, movePlayer_rejected cornerState ⟨-1, 0⟩ (Or.inl (by decide))⟩

/-- An accepted move, cell by cell. -/
theorem movePlayer_go (s : State) (d : Pos) (hd : ¬ (d.x = 0 ∧ d.y = 0))
    (hpl : inBounds s.player.x s.player.y)
    (hb : inBounds (s.player.x + d.x) (s.player.y + d.y))
    (hw : s.grid (s.player.y + d.y) (s.player.x + d.x) ≠ '1')
    (he : s.grid (s.player.y + d.y) (s.player.x + d.x) ≠ 'P') :
    ∃ t, movePlayer s d = some t ∧
      t.player = ⟨s.player.x + d.x, s.player.y + d.y⟩ ∧
      t.grid s.player.y s.player.x = '0' ∧
      t.grid (s.player.y + d.y) (s.player.x + d.x) = 'A' ∧
      (∀ r c, ¬ (r = s.player.y ∧ c = s.player.x) →
        ¬ (r = s.player.y + d.y ∧ c = s.player.x + d.x) → t.grid r c = s.grid r c) ∧
      t.enemy = s.enemy ∧ t.gameState = s.gameState ∧ t.startTime = s.startTime ∧
      t.surviveTime = s.surviveTime ∧ t.lastPlayer = s.lastPlayer ∧
      t.lastEnemy = s.lastEnemy := by
  have hb1 := hb
  simp only [inBounds] at hb1
  obtain ⟨h8x, h8y⟩ := toInt8_of_inBounds hb
  unfold movePlayer
  rw [if_neg hd]
  simp only
  rw [if_neg (by omega), gridGet_of_inBounds _ hb, Option.some_bind, if_neg (by simp [hw, he]),
    gridSet_of_inBounds _ _ hpl, Option.some_bind, h8x, h8y, gridSet_of_inBounds _ _ hb,
    Option.some_bind]
  refine ⟨_, rfl, rfl, ?_, ?_, ?_, rfl, rfl, rfl, rfl, rfl, rfl⟩
  · have hne : ¬ (s.player.y = s.player.y + d.y ∧ s.player.x = s.player.x + d.x) := by
      intro h
      apply hd
      omega
    exact (setCell_other _ _ hne).trans (setCell_same _ _ _ _)
  · exact setCell_same _ _ _ _
  · intro r c h1 h2
    exact (setCell_other _ _ h2).trans (setCell_other _ _ h1)

/-- C5: from a state whose player position is a grid cell, for a non-zero
direction whose candidate cell is in bounds and neither a wall nor the enemy,
`movePlayer` sets the previous player cell to `'0'`, the candidate cell to
`'A'`, stores the candidate as the player position, and changes no other grid
cell and no other variable. -/
theorem movePlayer_moves (s : State) (d : Pos) (hd : ¬ (d.x = 0 ∧ d.y = 0))
    (hpl : inBounds s.player.x s.player.y)
    (hb : inBounds (s.player.x + d.x) (s.player.y + d.y))
    (hw : s.grid (s.player.y + d.y) (s.player.x + d.x) ≠ '1')
    (he : s.grid (s.player.y + d.y) (s.player.x + d.x) ≠ 'P') :
    ∃ t, movePlayer s d = some t ∧
      t.player = ⟨s.player.x + d.x, s.player.y + d.y⟩ ∧
      t.grid s.player.y s.player.x = '0' ∧
      t.grid (s.player.y + d.y) (s.player.x + d.x) = 'A' ∧
      (∀ r c, ¬ (r = s.player.y ∧ c = s.player.x) →
        ¬ (r = s.player.y + d.y ∧ c = s.player.x + d.x) → t.grid r c = s.grid r c) ∧
      t.enemy = s.enemy ∧ t.gameState = s.gameState ∧ t.startTime = s.startTime ∧
      t.surviveTime = s.surviveTime ∧ t.lastPlayer = s.lastPlayer ∧
      t.lastEnemy = s.lastEnemy :=
  movePlayer_go s d hd hpl hb hw he

/-- Instance: the player at `(0, 0)` of an open grid moves south. -/
theorem movePlayer_moves_witness :
    ∃ t, movePlayer cornerState ⟨0, 1⟩ = some t ∧
      t.player = ⟨cornerState.player.x + 0, cornerState.player.y + 1⟩ ∧
      t.grid cornerState.player.y cornerState.player.x = '0' ∧
      t.grid (cornerState.player.y + 1) (cornerState.player.x + 0) = 'A' ∧
      (∀ r c, ¬ (r = cornerState.player.y ∧ c = cornerState.player.x) →
        ¬ (r = cornerState.player.y + 1 ∧ c = cornerState.player.x + 0) →
        t.grid r c = cornerState.grid r c) ∧
      t.enemy = cornerState.enemy ∧ t.gameState = cornerState.gameState ∧
      t.startTime = cornerState.startTime ∧
      t.surviveTime = cornerState.surviveTime ∧ t.lastPlayer = cornerState.lastPlayer ∧
      t.lastEnemy = cornerState.lastEnemy :=
  movePlayer_moves cornerState ⟨0, 1⟩ (by decide) (by decide) (by decide) (by decide)
    (by decide)

/-- C6: `movePlayer` with the direction `(0, 0)` returns the state unchanged,
and so does any number of such calls in a row. -/
theorem movePlayer_zero (s : State) (n : Nat) :
    movePlayer s ⟨0, 0⟩ = some s ∧
    Nat.iterate (fun o : Option State => o.bind fun t => movePlayer t ⟨0, 0⟩) n (some s)
      = some s := by
  have h1 : ∀ t : State, movePlayer t ⟨0, 0⟩ = some t := by
    intro t
    unfold movePlayer
    rw [if_pos ⟨rfl, rfl⟩]
  refine ⟨h1 s, ?_⟩
  induction n with
  | zero => rfl
  | succ n ih =>
    rw [Function.iterate_succ_apply]
    simp only [Option.some_bind, h1]
    exact ih

/-! ## The enemy move -/

theorem Walk.congr {g1 g2 : Grid} (h : ∀ c, freeCell g1 c → freeCell g2 c) {a b : Pos} {n : Nat}
    (w : Walk g1 a b n) : Walk g2 a b n := by
  induction w with
  | nil => exact Walk.nil
  | snoc _ hadj hf ih => exact Walk.snoc ih hadj (h _ hf)

theorem searchGrid_wall (s : State) (hp : s.grid s.player.y s.player.x ≠ '1')
    (he : s.grid s.enemy.y s.enemy.x ≠ '1') (r c : Int) :
    searchGrid s r c = '1' ↔ s.grid r c = '1' := by
  unfold searchGrid setCell
  by_cases h1 : r = s.enemy.y ∧ c = s.enemy.x
  · rw [if_pos h1, h1.1, h1.2]
    exact ⟨fun h => absurd h (by decide), fun h => absurd h he⟩
  · rw [if_neg h1]
    by_cases h2 : r = s.player.y ∧ c = s.player.x
    · rw [if_pos h2, h2.1, h2.2]
      exact ⟨fun h => absurd h (by decide), fun h => absurd h hp⟩
    · rw [if_neg h2]

theorem freeCell_searchGrid (s : State) (hp : s.grid s.player.y s.player.x ≠ '1')
    (he : s.grid s.enemy.y s.enemy.x ≠ '1') (c : Pos) :
    freeCell (searchGrid s) c ↔ freeCell s.grid c := by
  unfold freeCell
  rw [Ne, Ne, searchGrid_wall s hp he]

theorem walk_searchGrid (s : State) (hp : s.grid s.player.y s.player.x ≠ '1')
    (he : s.grid s.enemy.y s.enemy.x ≠ '1') (a b : Pos) (n : Nat) :
    Walk (searchGrid s) a b n ↔ Walk s.grid a b n :=
  ⟨Walk.congr fun c => (freeCell_searchGrid s hp he c).mp,
   Walk.congr fun c => (freeCell_searchGrid s hp he c).mpr⟩

theorem isDist_searchGrid (s : State) (hp : s.grid s.player.y s.player.x ≠ '1')
    (he : s.grid s.enemy.y s.enemy.x ≠ '1') (a b : Pos) (d : Nat) :
    IsDist (searchGrid s) a b d ↔ IsDist s.grid a b d := by
  unfold IsDist
  simp only [walk_searchGrid s hp he]

/-- The effect of `moveEnemy` on a state whose player cell holds `'A'` and
whose enemy cell holds `'P'`: nothing changes when the player cannot be
reached; otherwise the enemy goes to the cell answered by `bfsNextStep`, a
non-wall neighbour on a shortest walk to the player. -/
theorem moveEnemy_spec (s : State) (hp : inBounds s.player.x s.player.y)
    (he : inBounds s.enemy.x s.enemy.y) (hA : s.grid s.player.y s.player.x = 'A')
    (hP : s.grid s.enemy.y s.enemy.x = 'P') :
    (¬ Reachable s.grid s.enemy s.player ∧
      bfsNextStep (searchGrid s) s.enemy.x s.enemy.y s.player.x s.player.y = some ⟨-1, -1⟩ ∧
      moveEnemy s = some s) ∨
    (∃ next d, bfsNextStep (searchGrid s) s.enemy.x s.enemy.y s.player.x s.player.y = some next ∧
      inBounds next.x next.y ∧ s.grid next.y next.x ≠ '1' ∧ adj4 s.enemy next ∧
      next ≠ s.enemy ∧ IsDist s.grid s.enemy s.player d ∧ Walk s.grid next s.player (d - 1) ∧
      moveEnemy s = some
        { s with
          grid := setCell (setCell (setCell (searchGrid s) s.player.y s.player.x 'A')
            s.enemy.y s.enemy.x '0') next.y next.x 'P',
          enemy := next }) := by
  have hpw : s.grid s.player.y s.player.x ≠ '1' := by rw [hA]; decide
  have hew : s.grid s.enemy.y s.enemy.x ≠ '1' := by rw [hP]; decide
  have hne : ¬ (s.enemy.x = s.player.x ∧ s.enemy.y = s.player.y) := by
    rintro ⟨h1, h2⟩
    rw [h1, h2, hA] at hP
    exact absurd hP (by decide)
  obtain ⟨next, hnext, hcase⟩ := bfsNextStep_spec (searchGrid s) he hp
  have hsg : setCell (setCell s.grid s.player.y s.player.x '0') s.enemy.y s.enemy.x '0'
      = searchGrid s := rfl
  have hmove : moveEnemy s =
      if next.x = -1 then
        (gridSet (setCell (searchGrid s) s.player.y s.player.x 'A') s.enemy.y s.enemy.x 'P').bind
          fun g4 => some { s with grid := g4 }
      else
        (gridSet (setCell (searchGrid s) s.player.y s.player.x 'A') s.enemy.y s.enemy.x '0').bind
          fun g4 => (gridSet g4 next.y next.x 'P').bind
            fun g5 => some { s with grid := g5, enemy := next } := by
    unfold moveEnemy
    rw [gridSet_of_inBounds _ _ hp, Option.some_bind, gridSet_of_inBounds _ _ he,
      Option.some_bind, hsg, hnext, Option.some_bind, gridSet_of_inBounds _ _ hp,
      Option.some_bind]
  rcases hcase with ⟨h1, h2⟩ | ⟨h1, d, hd, _, h3⟩
  · left
    refine ⟨?_, h1 ▸ hnext, ?_⟩
    · rintro ⟨n, w⟩
      exact h2 ⟨n, (walk_searchGrid s hpw hew _ _ n).mpr w⟩
    · rw [hmove, h1, if_pos rfl, gridSet_of_inBounds _ _ he, Option.some_bind]
      have hg : setCell (setCell (searchGrid s) s.player.y s.player.x 'A')
          s.enemy.y s.enemy.x 'P' = s.grid := by
        funext r c
        unfold searchGrid setCell
        by_cases h4 : r = s.enemy.y ∧ c = s.enemy.x
        · rw [if_pos h4, h4.1, h4.2, hP]
        · rw [if_neg h4]
          by_cases h5 : r = s.player.y ∧ c = s.player.x
          · rw [if_pos h5, h5.1, h5.2, hA]
          · rw [if_neg h5, if_neg h4, if_neg h5]
      rw [hg]
  · right
    obtain ⟨hf, hadj, hne1, hw⟩ := h3 hne
    have hx : next.x ≠ -1 := by
      have := h1
      simp only [inBounds] at this
      omega
    refine ⟨next, d, hnext, h1, ((freeCell_searchGrid s hpw hew next).mp hf).2, hadj, hne1,
      (isDist_searchGrid s hpw hew _ _ d).mp hd, (walk_searchGrid s hpw hew _ _ _).mp hw, ?_⟩
    rw [hmove, if_neg hx, gridSet_of_inBounds _ _ he, Option.some_bind,
      gridSet_of_inBounds _ _ h1, Option.some_bind]

/-- C3: in a state whose player cell holds `'A'` and whose enemy cell holds
`'P'`, when the player cannot be reached from the enemy, `moveEnemy` returns
the state unchanged: enemy position, player position and every grid cell. -/
theorem moveEnemy_unreachable (s : State)
    (hA : gridGet s.grid s.player.y s.player.x = some 'A')
    (hP : gridGet s.grid s.enemy.y s.enemy.x = some 'P')
    (hun : ¬ Reachable s.grid s.enemy s.player) :
    bfsNextStep (searchGrid s) s.enemy.x s.enemy.y s.player.x s.player.y = some ⟨-1, -1⟩ ∧
    moveEnemy s = some s := by
  obtain ⟨hp, hA1⟩ := gridGet_eq_some hA
  obtain ⟨he, hP1⟩ := gridGet_eq_some hP
  rcases moveEnemy_spec s hp he hA1 hP1 with ⟨_, h1, h2⟩ | ⟨next, d, _, _, _, _, _, hd, _⟩
  · exact ⟨h1, h2⟩
  · exact absurd ⟨d, hd.1⟩ hun

theorem not_reachable_of_enclosed {g : Grid} {e p : Pos} (hne : e ≠ p)
    (h : ∀ b, adj4 b p → b ≠ e ∧ ¬ freeCell g b) : ¬ Reachable g e p := by
  rintro ⟨n, w⟩
  cases w with
  | nil => exact hne rfl
  | snoc w1 hadj _ =>
    obtain ⟨h1, h2⟩ := h _ hadj
    cases w1 with
    | nil => exact h1 rfl
    | snoc _ _ hf => exact h2 hf

theorem sealedState_unreachable :
    ¬ Reachable sealedState.grid sealedState.enemy sealedState.player := by
  apply not_reachable_of_enclosed (by decide)
  intro b hadj
  obtain ⟨bx, bY⟩ := b
  simp only [adj4, sealedState] at hadj
  simp only [freeCell, sealedState, Pos.mk.injEq, inBounds, COLS, ROWS]
  have e1 : (5 : Int) ≠ 0 := by decide
  rcases hadj with ⟨h1, h2⟩ | ⟨h1, h2⟩ | ⟨h1, h2⟩ | ⟨h1, h2⟩
  · have hx : bx = 4 := by omega
    subst hx h2
    simp
  · have hx : bx = 6 := by omega
    subst hx h2
    simp
  · have hy : bY = 4 := by omega
    subst hy h1
    simp
  · have hy : bY = 6 := by omega
    subst hy h1
    simp

/-- Instance: enemy and player walled off from each other. -/
theorem moveEnemy_unreachable_witness :
    ¬ Reachable sealedState.grid sealedState.enemy sealedState.player ∧
    bfsNextStep (searchGrid sealedState) sealedState.enemy.x sealedState.enemy.y
      sealedState.player.x sealedState.player.y = some ⟨-1, -1⟩ ∧
    moveEnemy sealedState = some sealedState :=
  ⟨sealedState_unreachable,
    moveEnemy_unreachable sealedState (by decide) (by decide) sealedState_unreachable⟩

/-! ## The grid invariant -/

set_option maxRecDepth 100000 in
theorem mazeTpl_nat : ∀ r, r < 16 → ∀ c, c < 32 →
    ((MAZE_TPL.getD r "").data).getD c (Char.ofNat 0) = '0' ∨
    ((MAZE_TPL.getD r "").data).getD c (Char.ofNat 0) = '1' := by
  decide

theorem mazeTpl_cases {x y : Int} (h : inBounds x y) : mazeTpl y x = '0' ∨ mazeTpl y x = '1' := by
  simp only [inBounds, COLS, ROWS] at h
  exact mazeTpl_nat y.toNat (by omega) x.toNat (by omega)

theorem mazeTpl_spawn : mazeTpl 1 1 = '0' ∧ mazeTpl 13 29 = '0' := by decide

theorem GridInv.of_eq {s t : State} (I : GridInv s) (hg : t.grid = s.grid)
    (hp : t.player = s.player) (he : t.enemy = s.enemy) : GridInv t := by
  obtain ⟨i1, i2, i3, i4, i5, i6⟩ := I
  constructor
  · rw [hp]; exact i1
  · rw [he]; exact i2
  · rw [hp, he]; exact i3
  · rw [hg, hp]; exact i4
  · rw [hg, he]; exact i5
  · rw [hg]; exact i6

theorem initGame_inv (s0 : State) (now : Nat) :
    GridInv (initGame s0 now) ∧ (initGame s0 now).gameState = GState.PLAYING := by
  refine ⟨?_, rfl⟩
  have hcell : ∀ x y, inBounds x y → (initGame s0 now).grid y x =
      if y = 13 ∧ x = 29 then 'P' else if y = 1 ∧ x = 1 then 'A' else mazeTpl y x := by
    intro x y hxy
    simp only [initGame, setCell, if_pos hxy]
  constructor
  · show inBounds 1 1
    decide
  · show inBounds 29 13
    decide
  · show (⟨1, 1⟩ : Pos) ≠ ⟨29, 13⟩
    decide
  · intro x y hxy
    rw [hcell x y hxy]
    show _ ↔ x = 1 ∧ y = 1
    by_cases h1 : y = 13 ∧ x = 29
    · rw [if_pos h1]
      constructor
      · intro h; exact absurd h (by decide)
      · intro h; omega
    · rw [if_neg h1]
      by_cases h2 : y = 1 ∧ x = 1
      · rw [if_pos h2]
        exact ⟨fun _ => ⟨h2.2, h2.1⟩, fun _ => rfl⟩
      · rw [if_neg h2]
        constructor
        · intro h
          rcases mazeTpl_cases hxy with h3 | h3 <;> rw [h3] at h <;> exact absurd h (by decide)
        · intro h
          exact absurd ⟨h.2, h.1⟩ h2
  · intro x y hxy
    rw [hcell x y hxy]
    show _ ↔ x = 29 ∧ y = 13
    by_cases h1 : y = 13 ∧ x = 29
    · rw [if_pos h1]
      exact ⟨fun _ => ⟨h1.2, h1.1⟩, fun _ => rfl⟩
    · rw [if_neg h1]
      by_cases h2 : y = 1 ∧ x = 1
      · rw [if_pos h2]
        constructor
        · intro h; exact absurd h (by decide)
        · intro h; omega
      · rw [if_neg h2]
        constructor
        · intro h
          rcases mazeTpl_cases hxy with h3 | h3 <;> rw [h3] at h <;> exact absurd h (by decide)
        · intro h
          exact absurd ⟨h.2, h.1⟩ h1
  · intro x y hxy
    rw [hcell x y hxy]
    by_cases h1 : y = 13 ∧ x = 29
    · rw [if_pos h1, h1.1, h1.2, mazeTpl_spawn.2]
      exact ⟨fun h => absurd h (by decide), fun h => absurd h (by decide)⟩
    · rw [if_neg h1]
      by_cases h2 : y = 1 ∧ x = 1
      · rw [if_pos h2, h2.1, h2.2, mazeTpl_spawn.1]
        exact ⟨fun h => absurd h (by decide), fun h => absurd h (by decide)⟩
      · rw [if_neg h2]


theorem pos_eq_iff (a b : Pos) : a = b ↔ a.x = b.x ∧ a.y = b.y := by
  obtain ⟨ax, ay⟩ := a
  obtain ⟨bx, bY⟩ := b
  simp

/-- The player move keeps the grid invariant and touches nothing but the grid and
the player position. -/
theorem movePlayer_inv (s : State) (d : Pos) (I : GridInv s) :
    ∃ t, movePlayer s d = some t ∧ GridInv t ∧ t.enemy = s.enemy ∧
      t.gameState = s.gameState ∧ t.startTime = s.startTime ∧
      t.surviveTime = s.surviveTime ∧ t.lastPlayer = s.lastPlayer ∧
      t.lastEnemy = s.lastEnemy := by
  by_cases hz : d.x = 0 ∧ d.y = 0
  · refine ⟨s, ?_, I, rfl, rfl, rfl, rfl, rfl, rfl⟩
    unfold movePlayer
    rw [if_pos hz]
  by_cases hb : inBounds (s.player.x + d.x) (s.player.y + d.y)
  swap
  · exact ⟨s, movePlayer_stay s d (Or.inl hb), I, rfl, rfl, rfl, rfl, rfl, rfl⟩
  by_cases hw : s.grid (s.player.y + d.y) (s.player.x + d.x) = '1'
  · refine ⟨s, movePlayer_stay s d (Or.inr (Or.inl ?_)), I, rfl, rfl, rfl, rfl, rfl, rfl⟩
    rw [gridGet_of_inBounds _ hb, hw]
  by_cases he : s.grid (s.player.y + d.y) (s.player.x + d.x) = 'P'
  · refine ⟨s, movePlayer_stay s d (Or.inr (Or.inr ?_)), I, rfl, rfl, rfl, rfl, rfl, rfl⟩
    rw [gridGet_of_inBounds _ hb, he]
  obtain ⟨t, ht, hpl, hold, hnew, hoth, hen, h1, h2, h3, h4, h5⟩ :=
    movePlayer_go s d hz I.player_in hb hw he
  refine ⟨t, ht, ?_, hen, h1, h2, h3, h4, h5⟩
  have hmv : ¬ (s.player.y = s.player.y + d.y ∧ s.player.x = s.player.x + d.x) := by
    intro h
    apply hz
    omega
  have holdA : s.grid s.player.y s.player.x = 'A' :=
    (I.cellA _ _ I.player_in).mpr ⟨rfl, rfl⟩
  have hcell : ∀ x y, t.grid y x =
      if y = s.player.y + d.y ∧ x = s.player.x + d.x then 'A'
      else if y = s.player.y ∧ x = s.player.x then '0' else s.grid y x := by
    intro x y
    by_cases c1 : y = s.player.y + d.y ∧ x = s.player.x + d.x
    · rw [if_pos c1, c1.1, c1.2, hnew]
    · rw [if_neg c1]
      by_cases c2 : y = s.player.y ∧ x = s.player.x
      · rw [if_pos c2, c2.1, c2.2, hold]
      · rw [if_neg c2, hoth y x c2 c1]
  constructor
  · rw [hpl]; exact hb
  · rw [hen]; exact I.enemy_in
  · rw [hpl, hen]
    intro h
    apply he
    exact (I.cellP _ _ hb).mpr ⟨congrArg Pos.x h, congrArg Pos.y h⟩
  · intro x y hxy
    rw [hcell, hpl]
    show _ ↔ x = s.player.x + d.x ∧ y = s.player.y + d.y
    by_cases c1 : y = s.player.y + d.y ∧ x = s.player.x + d.x
    · rw [if_pos c1]
      exact ⟨fun _ => ⟨c1.2, c1.1⟩, fun _ => rfl⟩
    · rw [if_neg c1]
      by_cases c2 : y = s.player.y ∧ x = s.player.x
      · rw [if_pos c2]
        exact ⟨fun h => absurd h (by decide), fun h => absurd ⟨h.2, h.1⟩ c1⟩
      · rw [if_neg c2, I.cellA x y hxy]
        exact ⟨fun h => absurd ⟨h.2, h.1⟩ c2, fun h => absurd ⟨h.2, h.1⟩ c1⟩
  · intro x y hxy
    rw [hcell, hen]
    by_cases c1 : y = s.player.y + d.y ∧ x = s.player.x + d.x
    · rw [if_pos c1]
      refine ⟨fun h => absurd h (by decide), fun h => ?_⟩
      exfalso
      apply he
      rw [← c1.1, ← c1.2]
      exact (I.cellP x y hxy).mpr h
    · rw [if_neg c1]
      by_cases c2 : y = s.player.y ∧ x = s.player.x
      · rw [if_pos c2]
        refine ⟨fun h => absurd h (by decide), fun h => ?_⟩
        exfalso
        apply I.distinct
        rw [pos_eq_iff]
        omega
      · rw [if_neg c2, I.cellP x y hxy]
  · intro x y hxy
    rw [hcell]
    by_cases c1 : y = s.player.y + d.y ∧ x = s.player.x + d.x
    · rw [if_pos c1, ← I.walls x y hxy, c1.1, c1.2]
      exact ⟨fun h => absurd h (by decide), fun h => absurd h hw⟩
    · rw [if_neg c1]
      by_cases c2 : y = s.player.y ∧ x = s.player.x
      · rw [if_pos c2, ← I.walls x y hxy, c2.1, c2.2, holdA]
        decide
      · rw [if_neg c2, I.walls x y hxy]

/-- The enemy move keeps the grid invariant unless it lands on the player. -/
theorem moveEnemy_inv (s : State) (I : GridInv s) :
    ∃ t, moveEnemy s = some t ∧ (t.player = t.enemy ∨ GridInv t) ∧ t.player = s.player ∧
      t.gameState = s.gameState ∧ t.startTime = s.startTime ∧
      t.surviveTime = s.surviveTime ∧ t.lastPlayer = s.lastPlayer ∧
      t.lastEnemy = s.lastEnemy := by
  have hA : s.grid s.player.y s.player.x = 'A' := (I.cellA _ _ I.player_in).mpr ⟨rfl, rfl⟩
  have hP : s.grid s.enemy.y s.enemy.x = 'P' := (I.cellP _ _ I.enemy_in).mpr ⟨rfl, rfl⟩
  rcases moveEnemy_spec s I.player_in I.enemy_in hA hP with
    ⟨_, _, h2⟩ | ⟨next, d, _, hin, hnw, _, hne, _, _, hmv⟩
  · exact ⟨s, h2, Or.inr I, rfl, rfl, rfl, rfl, rfl, rfl⟩
  refine ⟨_, hmv, ?_, rfl, rfl, rfl, rfl, rfl, rfl⟩
  by_cases hnp : s.player = next
  · exact Or.inl hnp
  right
  have hcell : ∀ x y, setCell (setCell (setCell (searchGrid s) s.player.y s.player.x 'A')
      s.enemy.y s.enemy.x '0') next.y next.x 'P' y x =
      if y = next.y ∧ x = next.x then 'P'
      else if y = s.enemy.y ∧ x = s.enemy.x then '0'
      else if y = s.player.y ∧ x = s.player.x then 'A' else s.grid y x := by
    intro x y
    unfold searchGrid setCell
    split_ifs <;> rfl
  have hpe : ¬ (s.player.y = s.enemy.y ∧ s.player.x = s.enemy.x) := by
    intro h
    apply I.distinct
    rw [pos_eq_iff]
    exact ⟨h.2, h.1⟩
  have hpn : ¬ (s.player.y = next.y ∧ s.player.x = next.x) := by
    intro h
    apply hnp
    rw [pos_eq_iff]
    exact ⟨h.2, h.1⟩
  have hen : ¬ (s.enemy.y = next.y ∧ s.enemy.x = next.x) := by
    intro h
    apply hne
    rw [pos_eq_iff]
    exact ⟨h.2.symm, h.1.symm⟩
  constructor
  · exact I.player_in
  · exact hin
  · exact hnp
  · intro x y hxy
    show setCell _ _ _ _ y x = _ ↔ x = s.player.x ∧ y = s.player.y
    rw [hcell]
    by_cases c1 : y = next.y ∧ x = next.x
    · rw [if_pos c1]
      refine ⟨fun h => absurd h (by decide), fun h => ?_⟩
      exfalso
      apply hpn
      omega
    · rw [if_neg c1]
      by_cases c2 : y = s.enemy.y ∧ x = s.enemy.x
      · rw [if_pos c2]
        refine ⟨fun h => absurd h (by decide), fun h => ?_⟩
        exfalso
        apply hpe
        omega
      · rw [if_neg c2]
        by_cases c3 : y = s.player.y ∧ x = s.player.x
        · rw [if_pos c3]
          exact ⟨fun _ => ⟨c3.2, c3.1⟩, fun _ => rfl⟩
        · rw [if_neg c3, I.cellA x y hxy]
  · intro x y hxy
    show setCell _ _ _ _ y x = _ ↔ x = next.x ∧ y = next.y
    rw [hcell]
    by_cases c1 : y = next.y ∧ x = next.x
    · rw [if_pos c1]
      exact ⟨fun _ => ⟨c1.2, c1.1⟩, fun _ => rfl⟩
    · rw [if_neg c1]
      by_cases c2 : y = s.enemy.y ∧ x = s.enemy.x
      · rw [if_pos c2]
        exact ⟨fun h => absurd h (by decide), fun h => absurd ⟨h.2, h.1⟩ c1⟩
      · rw [if_neg c2]
        by_cases c3 : y = s.player.y ∧ x = s.player.x
        · rw [if_pos c3]
          exact ⟨fun h => absurd h (by decide), fun h => absurd ⟨h.2, h.1⟩ c1⟩
        · rw [if_neg c3, I.cellP x y hxy]
          exact ⟨fun h => absurd ⟨h.2, h.1⟩ c2, fun h => absurd ⟨h.2, h.1⟩ c1⟩
  · intro x y hxy
    show setCell _ _ _ _ y x = _ ↔ _
    rw [hcell]
    by_cases c1 : y = next.y ∧ x = next.x
    · rw [if_pos c1, ← I.walls x y hxy, c1.1, c1.2]
      exact ⟨fun h => absurd h (by decide), fun h => absurd h hnw⟩
    · rw [if_neg c1]
      by_cases c2 : y = s.enemy.y ∧ x = s.enemy.x
      · rw [if_pos c2, ← I.walls x y hxy, c2.1, c2.2, hP]
        exact ⟨fun h => absurd h (by decide), fun h => absurd h (by decide)⟩
      · rw [if_neg c2]
        by_cases c3 : y = s.player.y ∧ x = s.player.x
        · rw [if_pos c3, ← I.walls x y hxy, c3.1, c3.2, hA]
        · rw [if_neg c3, I.walls x y hxy]

/-! ## The main loop -/

theorem playerTick_inv (s : State) (i : Input) (I : GridInv s) :
    ∃ t, playerTick s i = some t ∧ GridInv t ∧ t.gameState = s.gameState ∧
      t.startTime = s.startTime ∧ t.surviveTime = s.surviveTime := by
  unfold playerTick
  by_cases hc : toU32 ((i.now : Int) - s.lastPlayer) ≥ PLAYER_SPEED
  · rw [if_pos hc]
    obtain ⟨t, ht, It, _, h1, h2, h3, _, _⟩ := movePlayer_inv s (readJoystick i.jx i.jy) I
    rw [ht]
    exact ⟨_, rfl, It.of_eq rfl rfl rfl, h1, h2, h3⟩
  · rw [if_neg hc]
    exact ⟨s, rfl, I, rfl, rfl, rfl⟩

theorem enemyTick_inv (s : State) (i : Input) (I : GridInv s) :
    ∃ t, enemyTick s i = some t ∧ (t.player = t.enemy ∨ GridInv t) ∧
      t.gameState = s.gameState ∧ t.startTime = s.startTime ∧
      t.surviveTime = s.surviveTime := by
  unfold enemyTick
  by_cases hc : toU32 ((i.now : Int) - s.lastEnemy) ≥ enemySpeed i.nowSpeed s.startTime
  · rw [if_pos hc]
    obtain ⟨t, ht, It, _, h1, h2, h3, _, _⟩ := moveEnemy_inv s I
    rw [ht]
    refine ⟨_, rfl, ?_, h1, h2, h3⟩
    rcases It with h | h
    · exact Or.inl h
    · exact Or.inr (h.of_eq rfl rfl rfl)
  · rw [if_neg hc]
    exact ⟨s, rfl, Or.inr I, rfl, rfl, rfl⟩

/-- One call of `loop` from an active state that satisfies the grid invariant:
both ticks return, and the result is the collision check on their outcome. -/
theorem loop_playing (s : State) (i : Input) (hs : s.gameState = GState.PLAYING)
    (I : GridInv s) :
    ∃ s2, (playerTick s i).bind (fun s1 => enemyTick s1 i) = some s2 ∧
      loop s i = some (collide s2 i) ∧ s2.gameState = GState.PLAYING ∧
      (s2.player = s2.enemy ∨ GridInv s2) := by
  obtain ⟨s1, hs1, I1, g1, _, _⟩ := playerTick_inv s i I
  obtain ⟨s2, hs2, I2, g2, _, _⟩ := enemyTick_inv s1 i I1
  refine ⟨s2, ?_, ?_, ?_, I2⟩
  · rw [hs1, Option.some_bind, hs2]
  · unfold loop
    rw [if_neg (by rw [hs]; decide), hs1, Option.some_bind, hs2, Option.some_bind]
  · rw [g2, g1, hs]

theorem loop_game_over (s : State) (i : Input) (hs : s.gameState = GState.GAME_OVER) :
    loop s i = some (if i.sw then initGame s i.nowInit else s) := by
  unfold loop
  rw [if_pos hs]
  by_cases h : i.sw = true
  · rw [if_pos h, if_pos h]
  · rw [if_neg h, if_neg h]

theorem collide_eq_of_ne (s : State) (i : Input) (h : s.player ≠ s.enemy) :
    collide s i = s := by
  unfold collide
  rw [if_neg]
  intro hc
  apply h
  rw [pos_eq_iff]
  exact hc

theorem collide_of_eq (s : State) (i : Input) (h : s.player = s.enemy) :
    collide s i = { s with surviveTime := toU32 ((i.nowEnd : Int) - s.startTime),
                           gameState := GState.GAME_OVER } := by
  unfold collide
  rw [if_pos]
  rw [h]
  exact ⟨rfl, rfl⟩

theorem collide_pos (s : State) (i : Input) :
    (collide s i).player = s.player ∧ (collide s i).enemy = s.enemy ∧
    (collide s i).grid = s.grid := by
  unfold collide
  split_ifs <;> exact ⟨rfl, rfl, rfl⟩

/-- A call of `loop` keeps "active implies grid invariant" and always returns. -/
theorem loop_inv (s : State) (i : Input) (I : s.gameState = GState.PLAYING → GridInv s) :
    ∃ t, loop s i = some t ∧ (t.gameState = GState.PLAYING → GridInv t) := by
  cases hs : s.gameState with
  | GAME_OVER =>
    refine ⟨_, loop_game_over s i hs, ?_⟩
    by_cases h : i.sw = true
    · rw [if_pos h]
      intro _
      exact (initGame_inv s i.nowInit).1
    · rw [if_neg h]
      intro h1
      rw [hs] at h1
      exact absurd h1 (by decide)
  | PLAYING =>
    obtain ⟨s2, _, hl, _, I2⟩ := loop_playing s i hs (I hs)
    refine ⟨_, hl, ?_⟩
    by_cases he : s2.player = s2.enemy
    · rw [collide_of_eq s2 i he]
      intro h1
      exact absurd h1 (show GState.GAME_OVER ≠ GState.PLAYING by decide)
    · rw [collide_eq_of_ne s2 i he]
      intro _
      rcases I2 with h | h
      · exact absurd h he
      · exact h

theorem Reach.inv {s : State} (h : Reach s) : s.gameState = GState.PLAYING → GridInv s := by
  induction h with
  | init s0 now => exact fun _ => (initGame_inv s0 now).1
  | @step s t i _ hl ih =>
    obtain ⟨t1, ht1, I1⟩ := loop_inv s i ih
    rw [hl] at ht1
    rw [Option.some.inj ht1]
    exact I1

/-- C7: in every state that is reachable from `initGame` by calls of `loop` on
any inputs and in which the session is active, both positions are in bounds
and distinct, the cell `'A'` is exactly the player position, the cell `'P'` is
exactly the enemy position, and the wall cells are exactly those of
`MAZE_TPL`; moreover `loop` returns from every reachable state. -/
theorem grid_invariant (s : State) (hr : Reach s) (hs : s.gameState = GState.PLAYING) :
    inBounds s.player.x s.player.y ∧ inBounds s.enemy.x s.enemy.y ∧ s.player ≠ s.enemy ∧
    (∀ x y, inBounds x y → (s.grid y x = 'A' ↔ (x = s.player.x ∧ y = s.player.y))) ∧
    (∀ x y, inBounds x y → (s.grid y x = 'P' ↔ (x = s.enemy.x ∧ y = s.enemy.y))) ∧
    (∀ x y, inBounds x y → (s.grid y x = '1' ↔ mazeTpl y x = '1')) ∧
    ∀ i, ∃ t, loop s i = some t ∧ Reach t := by
  obtain ⟨h1, h2, h3, h4, h5, h6⟩ := hr.inv hs
  refine ⟨h1, h2, h3, h4, h5, h6, ?_⟩
  intro i
  obtain ⟨t, ht, _⟩ := loop_inv s i hr.inv
  exact ⟨t, ht, Reach.step i hr ht⟩

/-- Instance: the state right after `initGame`. -/
theorem grid_invariant_witness :
    Reach (initGame cornerState 0) ∧
    (inBounds (initGame cornerState 0).player.x (initGame cornerState 0).player.y ∧
    inBounds (initGame cornerState 0).enemy.x (initGame cornerState 0).enemy.y ∧
    (initGame cornerState 0).player ≠ (initGame cornerState 0).enemy ∧
    (∀ x y, inBounds x y → ((initGame cornerState 0).grid y x = 'A' ↔
      (x = (initGame cornerState 0).player.x ∧ y = (initGame cornerState 0).player.y))) ∧
    (∀ x y, inBounds x y → ((initGame cornerState 0).grid y x = 'P' ↔
      (x = (initGame cornerState 0).enemy.x ∧ y = (initGame cornerState 0).enemy.y))) ∧
    (∀ x y, inBounds x y → ((initGame cornerState 0).grid y x = '1' ↔ mazeTpl y x = '1')) ∧
    ∀ i, ∃ t, loop (initGame cornerState 0) i = some t ∧ Reach t) :=
  ⟨Reach.init cornerState 0,
    grid_invariant (initGame cornerState 0) (Reach.init cornerState 0) rfl⟩

theorem run_game_over (s : State) (hs : s.gameState = GState.GAME_OVER) :
    ∀ is : List Input, (∀ j ∈ is, j.sw = false) → run s is = some s := by
  intro is
  induction is with
  | nil => intro _; rfl
  | cons j js ih =>
    intro h
    have hj : j.sw = false := h j (List.mem_cons_self _ _)
    simp only [run]
    rw [loop_game_over s j hs, hj]
    simp only [Bool.false_eq_true, if_false, Option.some_bind]
    exact ih fun k hk => h k (List.mem_cons_of_mem _ hk)

/-- C8: from a reachable active state a call of `loop` performs both ticks
and, when they leave the player and the enemy on the same cell, ends in
`GAME_OVER` with `surviveTime = millis() - startTime`; from any state in
`GAME_OVER`, any number of calls of `loop` without the restart button leave the
whole state (positions, grid, recorded survival time) unchanged. -/
theorem collision_law (s : State) (i : Input) (hr : Reach s) :
    (s.gameState = GState.PLAYING →
      ∃ s2 t, (playerTick s i).bind (fun s1 => enemyTick s1 i) = some s2 ∧
        loop s i = some t ∧ t.player = s2.player ∧ t.enemy = s2.enemy ∧
        (s2.player = s2.enemy →
          t.gameState = GState.GAME_OVER ∧
          t.surviveTime = toU32 ((i.nowEnd : Int) - s2.startTime))) ∧
    (∀ u : State, u.gameState = GState.GAME_OVER →
      ∀ is : List Input, (∀ j ∈ is, j.sw = false) → run u is = some u) := by
  constructor
  · intro hs
    obtain ⟨s2, h1, h2, _, _⟩ := loop_playing s i hs (hr.inv hs)
    refine ⟨s2, collide s2 i, h1, h2, (collide_pos s2 i).1, (collide_pos s2 i).2.1, ?_⟩
    intro he
    rw [collide_of_eq s2 i he]
    exact ⟨rfl, rfl⟩
  · intro u hu
    exact run_game_over u hu

/-! ## Difficulty clock -/

theorem f32round_small {z : Int} (h1 : -16777216 < z) (h2 : z < 16777216) : f32round z = z := by
  have ha : z.natAbs < 2 ^ 24 := by omega
  have hlog : Nat.log2 z.natAbs - 23 = 0 := by
    by_cases h0 : z.natAbs = 0
    · rw [h0]
      have : Nat.log2 0 = 0 := by
        rw [Nat.log2]
        simp
      omega
    · have := (Nat.log2_lt h0).mpr ha
      omega
  unfold f32round
  simp only [hlog, pow_zero, Nat.div_one, Nat.mod_one, mul_zero, mul_one]
  simp only [show ¬ (0 > 1 ∨ (0 = 1 ∧ z.natAbs % 2 = 1)) by omega, if_false]
  exact Int.sign_mul_natAbs z

theorem toU32_lt (z : Int) : toU32 z < 4294967296 := by
  unfold toU32
  omega

/-- The value of `enemySpeed` in exact integer arithmetic. -/
theorem enemySpeed_eq (now startTime : Nat) :
    (enemySpeed now startTime : Int) =
      max (480 - 50 * ((toU32 ((now : Int) - startTime) / 1000 / 30 : Nat) : Int)) 80 := by
  have he := toU32_lt ((now : Int) - startTime)
  unfold enemySpeed
  simp only [SPEED_INTERVAL, ENEMY_SPEED_BASE, ENEMY_SPEED_MIN, SPEED_STEP]
  generalize toU32 ((now : Int) - startTime) = e at he ⊢
  have hl : e / 1000 / 30 ≤ 143165 := by omega
  generalize e / 1000 / 30 = lv at hl ⊢
  rw [@f32round_small (lv : Int) (by omega) (by omega),
    @f32round_small ((lv : Int) * 50) (by omega) (by omega),
    @f32round_small (480 - (lv : Int) * 50) (by omega) (by omega)]
  unfold toU32
  split_ifs with h <;> omega


/-- C9: the enemy interval never increases with the elapsed time
`millis() - startTime` (an `unsigned long`, so below `2^32`), and it always
lies between the floor of 80 ms and the base of 480 ms. -/
theorem enemySpeed_monotone (startTime now1 now2 : Nat)
    (h : toU32 ((now1 : Int) - startTime) < toU32 ((now2 : Int) - startTime)) :
    enemySpeed now2 startTime ≤ enemySpeed now1 startTime ∧
    (∀ now : Nat, (ENEMY_SPEED_MIN : Int) ≤ enemySpeed now startTime ∧
      (enemySpeed now startTime : Int) ≤ ENEMY_SPEED_BASE) := by
  constructor
  · have e1 := enemySpeed_eq now1 startTime
    have e2 := enemySpeed_eq now2 startTime
    have hl : toU32 ((now1 : Int) - startTime) / 1000 / 30 ≤
        toU32 ((now2 : Int) - startTime) / 1000 / 30 :=
      Nat.div_le_div_right (Nat.div_le_div_right (le_of_lt h))
    omega
  · intro now
    have e := enemySpeed_eq now startTime
    simp only [ENEMY_SPEED_MIN, ENEMY_SPEED_BASE]
    omega

/-- Instance: elapsed times 0 s and 35 s. -/
theorem enemySpeed_monotone_witness :
    toU32 ((0 : Nat) - (0 : Nat) : Int) < toU32 ((35000 : Nat) - (0 : Nat) : Int) ∧
    (enemySpeed 35000 0 ≤ enemySpeed 0 0 ∧
    (∀ now : Nat, (ENEMY_SPEED_MIN : Int) ≤ enemySpeed now 0 ∧
      (enemySpeed now 0 : Int) ≤ ENEMY_SPEED_BASE)) :=
  ⟨by decide, enemySpeed_monotone 0 0 35000 (by decide)⟩

/-- C10: for every elapsed time `millis() - startTime`, `enemySpeed` is
`max (480 - 50 * (elapsed / 1000 / 30)) 80` in exact integer arithmetic (the
`float` operations of the source round nothing here and the difference does
not wrap); it is 480 at 0 s, 430 at 35 s and 80 at 300 s. -/
theorem enemySpeed_formula (now startTime : Nat) :
    (enemySpeed now startTime : Int) =
      max (ENEMY_SPEED_BASE -
        SPEED_STEP * ((toU32 ((now : Int) - startTime) / 1000 / SPEED_INTERVAL : Nat) : Int))
        ENEMY_SPEED_MIN ∧
    enemySpeed 0 0 = 480 ∧ enemySpeed 35000 0 = 430 ∧ enemySpeed 300000 0 = 80 := by
  refine ⟨enemySpeed_eq now startTime, ?_, ?_, ?_⟩
  · have e := enemySpeed_eq 0 0
    have : toU32 (((0 : Nat) : Int) - ((0 : Nat) : Int)) = 0 := by decide
    rw [this] at e
    omega
  · have e := enemySpeed_eq 35000 0
    have : toU32 (((35000 : Nat) : Int) - ((0 : Nat) : Int)) = 35000 := by decide
    rw [this] at e
    omega
  · have e := enemySpeed_eq 300000 0
    have : toU32 (((300000 : Nat) : Int) - ((0 : Nat) : Int)) = 300000 := by decide
    rw [this] at e
    omega

/-! ## Further claims on the pathfinder -/

/-- C12: for every in-bounds cell `p` and every grid content,
`bfsNextStep(p, p)` returns the cell `p` itself, never the sentinel. -/
theorem bfsNextStep_same (g : Grid) (p : Pos) (hp : inBounds p.x p.y) :
    bfsNextStep g p.x p.y p.x p.y = some p ∧ p ≠ ⟨-1, -1⟩ := by
  obtain ⟨px, py⟩ := p
  simp only at hp
  obtain ⟨r, hr, hcase⟩ := bfsNextStep_spec g hp hp
  have hne : (⟨px, py⟩ : Pos) ≠ ⟨-1, -1⟩ := by
    intro h
    simp only [Pos.mk.injEq] at h
    simp only [inBounds] at hp
    omega
  refine ⟨?_, hne⟩
  rcases hcase with ⟨_, h2⟩ | ⟨_, d, _, h3, _⟩
  · exact absurd ⟨0, Walk.nil⟩ h2
  · rw [hr, h3 ⟨rfl, rfl⟩]

/-- Instance: the cell `(3, 3)` of the open grid. -/
theorem bfsNextStep_same_witness :
    bfsNextStep openGrid 3 3 3 3 = some ⟨3, 3⟩ ∧ (⟨3, 3⟩ : Pos) ≠ ⟨-1, -1⟩ :=
  bfsNextStep_same openGrid ⟨3, 3⟩ (by decide)

theorem walk_manhattan {g : Grid} {a b : Pos} {n : Nat} (w : Walk g a b n) :
    (b.x - a.x).natAbs + (b.y - a.y).natAbs ≤ n := by
  induction w with
  | nil => simp
  | @snoc b c n _ hadj _ ih =>
    simp only [adj4] at hadj
    rcases hadj with ⟨h1, h2⟩ | ⟨h1, h2⟩ | ⟨h1, h2⟩ | ⟨h1, h2⟩ <;> rw [h1, h2] <;> omega

/-- C14: on the grid of scenario A, `bfsNextStep` with enemy `(3, 3)` and
player `(1, 1)` returns `(2, 3)`, one of the two cells `(2, 3)`, `(3, 2)`; the
shortest-path distance to `(1, 1)` is 4 from `(3, 3)` and 3 from the returned
cell. -/
theorem scenario_A :
    bfsNextStep boxGrid 3 3 1 1 = some ⟨2, 3⟩ ∧
    (∃ r, bfsNextStep boxGrid 3 3 1 1 = some r ∧ (r = ⟨2, 3⟩ ∨ r = ⟨3, 2⟩)) ∧
    IsDist boxGrid ⟨3, 3⟩ ⟨1, 1⟩ 4 ∧ IsDist boxGrid ⟨2, 3⟩ ⟨1, 1⟩ 3 := by
  have hr : bfsNextStep boxGrid 3 3 1 1 = some ⟨2, 3⟩ := by decide
  have hfree : ∀ x y : Int, 1 ≤ x → x ≤ 3 → 1 ≤ y → y ≤ 3 → freeCell boxGrid ⟨x, y⟩ := by
    intro x y h1 h2 h3 h4
    refine ⟨?_, ?_⟩
    · simp only [inBounds, COLS, ROWS]
      omega
    · simp only [boxGrid]
      rw [if_pos ⟨h3, h4, h1, h2⟩]
      decide
  have w3 : Walk boxGrid ⟨2, 3⟩ ⟨1, 1⟩ 3 :=
    Walk.snoc (Walk.snoc (Walk.snoc Walk.nil
      (b := ⟨2, 3⟩) (c := ⟨1, 3⟩) (Or.inr (Or.inl ⟨rfl, rfl⟩))
        (hfree 1 3 (by decide) (by decide) (by decide) (by decide)))
      (c := ⟨1, 2⟩) (Or.inr (Or.inr (Or.inr ⟨rfl, rfl⟩)))
        (hfree 1 2 (by decide) (by decide) (by decide) (by decide)))
      (c := ⟨1, 1⟩) (Or.inr (Or.inr (Or.inr ⟨rfl, rfl⟩)))
        (hfree 1 1 (by decide) (by decide) (by decide) (by decide))
  have w1 : Walk boxGrid ⟨3, 3⟩ ⟨2, 3⟩ 1 :=
    Walk.snoc Walk.nil (Or.inr (Or.inl ⟨rfl, rfl⟩))
      (hfree 2 3 (by decide) (by decide) (by decide) (by decide))
  refine ⟨hr, ⟨_, hr, Or.inl rfl⟩, ⟨w1.trans w3, ?_⟩, ⟨w3, ?_⟩⟩
  · intro n w
    have := walk_manhattan w
    simp only at this
    omega
  · intro n w
    have := walk_manhattan w
    simp only at this
    omega

/-- The in-bounds cells of the grid left by `initGame`. -/
theorem initGame_grid (s : State) (now : Nat) {x y : Int} (hxy : inBounds x y) :
    (initGame s now).grid y x =
      if y = 13 ∧ x = 29 then 'P' else if y = 1 ∧ x = 1 then 'A' else mazeTpl y x := by
  simp only [initGame, setCell, if_pos hxy]

/-- C13: from every prior state `initGame` yields `PLAYING`, the player at
`(1, 1)`, the enemy at `(29, 13)`, the start time `millis()`, and a grid that
holds `'A'` at `(1, 1)`, `'P'` at `(29, 13)` and the character of `MAZE_TPL`
in every other cell; both spawn cells are `'0'` in `MAZE_TPL`, the wall cells
are exactly those of `MAZE_TPL`, and none of this depends on the prior state. -/
theorem initGame_reset (s : State) (now : Nat) :
    (initGame s now).gameState = GState.PLAYING ∧
    (initGame s now).player = ⟨1, 1⟩ ∧ (initGame s now).enemy = ⟨29, 13⟩ ∧
    (initGame s now).startTime = now ∧
    (initGame s now).grid 1 1 = 'A' ∧ (initGame s now).grid 13 29 = 'P' ∧
    (∀ x y, inBounds x y → ¬ (x = 1 ∧ y = 1) → ¬ (x = 29 ∧ y = 13) →
      (initGame s now).grid y x = mazeTpl y x) ∧
    mazeTpl 1 1 = '0' ∧ mazeTpl 13 29 = '0' ∧
    (∀ x y, inBounds x y → ((initGame s now).grid y x = '1' ↔ mazeTpl y x = '1')) ∧
    (∀ s1 : State,
      (initGame s1 now).gameState = (initGame s now).gameState ∧
      (initGame s1 now).player = (initGame s now).player ∧
      (initGame s1 now).enemy = (initGame s now).enemy ∧
      (initGame s1 now).startTime = (initGame s now).startTime ∧
      ∀ x y, inBounds x y → (initGame s1 now).grid y x = (initGame s now).grid y x) := by
  refine ⟨rfl, rfl, rfl, rfl, ?_, ?_, ?_, mazeTpl_spawn.1, mazeTpl_spawn.2, ?_, ?_⟩
  · rw [initGame_grid s now (by decide : inBounds 1 1)]
    decide
  · rw [initGame_grid s now (by decide : inBounds 29 13)]
    decide
  · intro x y hxy h1 h2
    rw [initGame_grid s now hxy, if_neg (fun h => h2 ⟨h.2, h.1⟩),
      if_neg (fun h => h1 ⟨h.2, h.1⟩)]
  · intro x y hxy
    exact (initGame_inv s now).1.walls x y hxy
  · intro s1
    refine ⟨rfl, rfl, rfl, rfl, ?_⟩
    intro x y hxy
    rw [initGame_grid s now hxy, initGame_grid s1 now hxy]

/-! ## Only the walls matter to the search -/

theorem visit_congr {g1 g2 : Grid} (h : ∀ x y, inBounds x y → (g1 y x = '1' ↔ g2 y x = '1'))
    (ci : Nat) (st : Bfs) (d : Int × Int) : visit g1 ci st d = visit g2 ci st d := by
  simp only [visit]
  by_cases hb : (i2p ci).x + d.1 < 0 ∨ (i2p ci).y + d.2 < 0 ∨ (i2p ci).x + d.1 ≥ COLS ∨
      (i2p ci).y + d.2 ≥ ROWS
  · rw [if_pos hb, if_pos hb]
  · rw [if_neg hb, if_neg hb]
    have hin : inBounds ((i2p ci).x + d.1) ((i2p ci).y + d.2) := by
      simp only [inBounds]
      omega
    by_cases hw : g1 ((i2p ci).y + d.2) ((i2p ci).x + d.1) = '1'
    · rw [if_pos hw, if_pos ((h _ _ hin).mp hw)]
    · rw [if_neg hw, if_neg (fun h2 => hw ((h _ _ hin).mpr h2))]

theorem expand_congr {g1 g2 : Grid} (h : ∀ x y, inBounds x y → (g1 y x = '1' ↔ g2 y x = '1'))
    (ci : Nat) (st : Bfs) : expand g1 ci st = expand g2 ci st := by
  unfold expand
  have : visit g1 ci = visit g2 ci := by
    funext st d
    exact visit_congr h ci st d
  rw [this]

theorem bfsLoop_congr {g1 g2 : Grid} (h : ∀ x y, inBounds x y → (g1 y x = '1' ↔ g2 y x = '1'))
    (dstI : Nat) : ∀ (fuel : Nat) (st : Bfs), bfsLoop g1 dstI fuel st = bfsLoop g2 dstI fuel st := by
  intro fuel
  induction fuel with
  | zero => intro st; rfl
  | succ fuel ih =>
    intro st
    simp only [bfsLoop, expand_congr h, ih]

/-- Two grids with the same wall cells give the same answer. -/
theorem bfsNextStep_congr {g1 g2 : Grid}
    (h : ∀ x y, inBounds x y → (g1 y x = '1' ↔ g2 y x = '1')) (ex ey px py : Int) :
    bfsNextStep g1 ex ey px py = bfsNextStep g2 ex ey px py := by
  unfold bfsNextStep bfsNextStepFuel
  rw [bfsLoop_congr h]

/-! ## The enemy move, cell by cell -/

theorem movedGrid_apply (s : State) (next : Pos) (x y : Int) :
    setCell (setCell (setCell (searchGrid s) s.player.y s.player.x 'A')
      s.enemy.y s.enemy.x '0') next.y next.x 'P' y x =
      if y = next.y ∧ x = next.x then 'P'
      else if y = s.enemy.y ∧ x = s.enemy.x then '0'
      else if y = s.player.y ∧ x = s.player.x then 'A' else s.grid y x := by
  unfold searchGrid setCell
  split_ifs <;> rfl

/-- C16: in a state whose player cell holds `'A'` and whose enemy cell holds
`'P'` (so both positions are in bounds and distinct) and in which the player
can be reached, `moveEnemy` moves the enemy to the result `next` of
`bfsNextStep`, a 4-neighbour of the old enemy cell: the old enemy cell becomes
`'0'`, the cell `next` becomes `'P'`, the stored enemy position is `next`, the
player position is unchanged, the player cell is `'A'` unless `next` is that
cell, and every other cell, every wall and every other variable is as before. -/
theorem moveEnemy_moves (s : State)
    (hA : gridGet s.grid s.player.y s.player.x = some 'A')
    (hP : gridGet s.grid s.enemy.y s.enemy.x = some 'P')
    (hr : Reachable s.grid s.enemy s.player) :
    ∃ next t, bfsNextStep (searchGrid s) s.enemy.x s.enemy.y s.player.x s.player.y = some next ∧
      bfsNextStep s.grid s.enemy.x s.enemy.y s.player.x s.player.y = some next ∧
      inBounds next.x next.y ∧ adj4 s.enemy next ∧
      moveEnemy s = some t ∧ t.enemy = next ∧ t.player = s.player ∧
      t.grid s.enemy.y s.enemy.x = '0' ∧ t.grid next.y next.x = 'P' ∧
      (next ≠ s.player → t.grid s.player.y s.player.x = 'A') ∧
      (∀ r c, ¬ (r = s.enemy.y ∧ c = s.enemy.x) → ¬ (r = next.y ∧ c = next.x) →
        t.grid r c = s.grid r c) ∧
      (∀ r c, t.grid r c = '1' ↔ s.grid r c = '1') ∧
      t.gameState = s.gameState ∧ t.startTime = s.startTime ∧
      t.surviveTime = s.surviveTime ∧ t.lastPlayer = s.lastPlayer ∧
      t.lastEnemy = s.lastEnemy := by
  obtain ⟨hp, hA1⟩ := gridGet_eq_some hA
  obtain ⟨he, hP1⟩ := gridGet_eq_some hP
  have hpw : s.grid s.player.y s.player.x ≠ '1' := by rw [hA1]; decide
  have hew : s.grid s.enemy.y s.enemy.x ≠ '1' := by rw [hP1]; decide
  rcases moveEnemy_spec s hp he hA1 hP1 with
    ⟨h1, _, _⟩ | ⟨next, d, hnext, hin, hnw, hadj, hne, _, _, hmv⟩
  · exact absurd hr h1
  have hen : ¬ (s.enemy.y = next.y ∧ s.enemy.x = next.x) := by
    intro h
    apply hne
    rw [pos_eq_iff]
    exact ⟨h.2.symm, h.1.symm⟩
  have hpe : ¬ (s.player.y = s.enemy.y ∧ s.player.x = s.enemy.x) := by
    rintro ⟨h1, h2⟩
    rw [h1, h2, hP1] at hA1
    exact absurd hA1 (by decide)
  refine ⟨next, _, hnext, ?_, hin, hadj, hmv, rfl, rfl, ?_, ?_, ?_, ?_, ?_, rfl, rfl, rfl, rfl,
    rfl⟩
  · rw [← bfsNextStep_congr (fun x y _ => searchGrid_wall s hpw hew y x)]
    exact hnext
  · show setCell _ _ _ _ _ _ = _
    rw [movedGrid_apply, if_neg hen, if_pos ⟨rfl, rfl⟩]
  · show setCell _ _ _ _ _ _ = _
    rw [movedGrid_apply, if_pos ⟨rfl, rfl⟩]
  · intro hnp
    have hpn : ¬ (s.player.y = next.y ∧ s.player.x = next.x) := by
      intro h
      apply hnp
      rw [pos_eq_iff]
      exact ⟨h.2.symm, h.1.symm⟩
    show setCell _ _ _ _ _ _ = _
    rw [movedGrid_apply, if_neg hpn, if_neg hpe, if_pos ⟨rfl, rfl⟩]
  · intro r c h1 h2
    show setCell _ _ _ _ _ _ = _
    rw [movedGrid_apply, if_neg h2, if_neg h1]
    by_cases h3 : r = s.player.y ∧ c = s.player.x
    · rw [if_pos h3, h3.1, h3.2, hA1]
    · rw [if_neg h3]
  · intro r c
    show setCell _ _ _ _ _ _ = _ ↔ _
    rw [movedGrid_apply]
    by_cases h1 : r = next.y ∧ c = next.x
    · rw [if_pos h1, h1.1, h1.2]
      exact ⟨fun h => absurd h (by decide), fun h => absurd h hnw⟩
    · rw [if_neg h1]
      by_cases h2 : r = s.enemy.y ∧ c = s.enemy.x
      · rw [if_pos h2, h2.1, h2.2]
        exact ⟨fun h => absurd h (by decide), fun h => absurd h hew⟩
      · rw [if_neg h2]
        by_cases h3 : r = s.player.y ∧ c = s.player.x
        · rw [if_pos h3, h3.1, h3.2, hA1]
        · rw [if_neg h3]


/-- Instance: the corner state, where the enemy at `(1, 0)` is next to the
player at `(0, 0)`. -/
theorem moveEnemy_moves_witness :
    Reachable cornerState.grid cornerState.enemy cornerState.player ∧
    ∃ next t, bfsNextStep (searchGrid cornerState) cornerState.enemy.x cornerState.enemy.y
        cornerState.player.x cornerState.player.y = some next ∧
      bfsNextStep cornerState.grid cornerState.enemy.x cornerState.enemy.y
        cornerState.player.x cornerState.player.y = some next ∧
      inBounds next.x next.y ∧ adj4 cornerState.enemy next ∧
      moveEnemy cornerState = some t ∧ t.enemy = next ∧ t.player = cornerState.player ∧
      t.grid cornerState.enemy.y cornerState.enemy.x = '0' ∧ t.grid next.y next.x = 'P' ∧
      (next ≠ cornerState.player → t.grid cornerState.player.y cornerState.player.x = 'A') ∧
      (∀ r c, ¬ (r = cornerState.enemy.y ∧ c = cornerState.enemy.x) →
        ¬ (r = next.y ∧ c = next.x) → t.grid r c = cornerState.grid r c) ∧
      (∀ r c, t.grid r c = '1' ↔ cornerState.grid r c = '1') ∧
      t.gameState = cornerState.gameState ∧ t.startTime = cornerState.startTime ∧
      t.surviveTime = cornerState.surviveTime ∧ t.lastPlayer = cornerState.lastPlayer ∧
      t.lastEnemy = cornerState.lastEnemy :=
  have hr : Reachable cornerState.grid cornerState.enemy cornerState.player :=
    ⟨1, Walk.snoc Walk.nil (Or.inr (Or.inl ⟨by decide, by decide⟩)) ⟨by decide, by decide⟩⟩
  ⟨hr, moveEnemy_moves cornerState (by decide) (by decide) hr⟩

/-! ## Restart and tick scheduling -/

/-- C19, as the code has it: a call of `loop` in `GAME_OVER` with the restart
button pressed runs `initGame`: the session becomes active, the spawn
positions are set and the start time is the clock value read by `initGame`;
the tick timers `lastPlayer` and `lastEnemy` (and `surviveTime`) keep the
values of the previous session. -/
theorem restart_keeps_timers (s : State) (i : Input)
    (hs : s.gameState = GState.GAME_OVER) (hsw : i.sw = true) :
    ∃ t, loop s i = some t ∧ t.gameState = GState.PLAYING ∧ GridInv t ∧
      t.player = ⟨1, 1⟩ ∧ t.enemy = ⟨29, 13⟩ ∧ t.startTime = i.nowInit ∧
      t.lastPlayer = s.lastPlayer ∧ t.lastEnemy = s.lastEnemy ∧
      t.surviveTime = s.surviveTime := by
  refine ⟨initGame s i.nowInit, ?_, rfl, (initGame_inv s i.nowInit).1, rfl, rfl, rfl, rfl, rfl,
    rfl⟩
  rw [loop_game_over s i hs, if_pos hsw]

/-- Instance: the restart of the ended state. -/
theorem restart_keeps_timers_witness :
    ∃ t, loop endedState restartInput = some t ∧ t.gameState = GState.PLAYING ∧ GridInv t ∧
      t.player = ⟨1, 1⟩ ∧ t.enemy = ⟨29, 13⟩ ∧ t.startTime = restartInput.nowInit ∧
      t.lastPlayer = endedState.lastPlayer ∧ t.lastEnemy = endedState.lastEnemy ∧
      t.surviveTime = endedState.surviveTime :=
  restart_keeps_timers endedState restartInput rfl rfl

/-- The restart of the ended state at 25300 ms leaves `lastPlayer = 20900` and
`lastEnemy = 21000`: the tick timers are not set to the restart time. -/
theorem restart_timers_stale :
    endedState.gameState = GState.GAME_OVER ∧ restartInput.sw = true ∧
    ∃ t, loop endedState restartInput = some t ∧ t.startTime = restartInput.nowInit ∧
      t.lastPlayer = 20900 ∧ t.lastEnemy = 21000 ∧
      t.lastPlayer ≠ restartInput.nowInit ∧ t.lastEnemy ≠ restartInput.nowInit := by
  refine ⟨rfl, rfl, initGame endedState restartInput.nowInit, ?_, rfl, rfl, rfl, ?_, ?_⟩
  · rw [loop_game_over endedState restartInput rfl, if_pos (show restartInput.sw = true from rfl)]
  · show (20900 : Nat) ≠ 25300
    decide
  · show (21000 : Nat) ≠ 25300
    decide

theorem collide_timers (s : State) (i : Input) :
    (collide s i).lastPlayer = s.lastPlayer ∧ (collide s i).lastEnemy = s.lastEnemy := by
  unfold collide
  split_ifs <;> exact ⟨rfl, rfl⟩

/-- C20: in a call of `loop` from a reachable active state, the player tick
runs `movePlayer` and sets `lastPlayer` to `now` when
`now - lastPlayer >= PLAYER_SPEED` (unsigned), and otherwise leaves
`lastPlayer` and the player position as they were; the enemy tick runs
`moveEnemy` and sets `lastEnemy` to `now` when `now - lastEnemy >=
enemySpeed()`, and otherwise leaves `lastEnemy` and the enemy position as they
were. The condition of either tick reads only its own timer, and neither tick
writes the timer or the position of the other actor. -/
theorem tick_schedule (s : State) (i : Input) (hr : Reach s)
    (hs : s.gameState = GState.PLAYING) :
    ∃ s1 s2 t, playerTick s i = some s1 ∧ enemyTick s1 i = some s2 ∧ loop s i = some t ∧
      (toU32 ((i.now : Int) - s.lastPlayer) ≥ PLAYER_SPEED →
        t.lastPlayer = i.now ∧
        ∃ m, movePlayer s (readJoystick i.jx i.jy) = some m ∧ t.player = m.player) ∧
      (¬ toU32 ((i.now : Int) - s.lastPlayer) ≥ PLAYER_SPEED →
        t.lastPlayer = s.lastPlayer ∧ t.player = s.player ∧ s1 = s) ∧
      (toU32 ((i.now : Int) - s.lastEnemy) ≥ enemySpeed i.nowSpeed s.startTime →
        t.lastEnemy = i.now ∧ ∃ m, moveEnemy s1 = some m ∧ t.enemy = m.enemy) ∧
      (¬ toU32 ((i.now : Int) - s.lastEnemy) ≥ enemySpeed i.nowSpeed s.startTime →
        t.lastEnemy = s.lastEnemy ∧ t.enemy = s.enemy ∧ s2 = s1) ∧
      s1.lastEnemy = s.lastEnemy ∧ s1.enemy = s.enemy ∧
      s2.lastPlayer = s1.lastPlayer ∧ s2.player = s1.player := by
  have I := hr.inv hs
  obtain ⟨m1, hm1, Im1, me1, _, mst1, _, _, mle1⟩ := movePlayer_inv s (readJoystick i.jx i.jy) I
  -- the player tick
  have hp : ∃ s1, playerTick s i = some s1 ∧ GridInv s1 ∧
      s1.lastEnemy = s.lastEnemy ∧ s1.enemy = s.enemy ∧ s1.startTime = s.startTime ∧
      (toU32 ((i.now : Int) - s.lastPlayer) ≥ PLAYER_SPEED →
        s1.lastPlayer = i.now ∧ s1.player = m1.player) ∧
      (¬ toU32 ((i.now : Int) - s.lastPlayer) ≥ PLAYER_SPEED → s1 = s) := by
    unfold playerTick
    by_cases hc : toU32 ((i.now : Int) - s.lastPlayer) ≥ PLAYER_SPEED
    · rw [if_pos hc, hm1]
      exact ⟨_, rfl, Im1.of_eq rfl rfl rfl, mle1, me1, mst1, fun _ => ⟨rfl, rfl⟩,
        fun h => absurd hc h⟩
    · rw [if_neg hc]
      exact ⟨s, rfl, I, rfl, rfl, rfl, fun h => absurd h hc, fun _ => rfl⟩
  obtain ⟨s1, hs1, I1, h1le, h1e, h1st, h1a, h1b⟩ := hp
  obtain ⟨m2, hm2, _, mp2, _, _, _, mlp2, _⟩ := moveEnemy_inv s1 I1
  -- the enemy tick
  have he : ∃ s2, enemyTick s1 i = some s2 ∧
      s2.lastPlayer = s1.lastPlayer ∧ s2.player = s1.player ∧
      (toU32 ((i.now : Int) - s.lastEnemy) ≥ enemySpeed i.nowSpeed s.startTime →
        s2.lastEnemy = i.now ∧ s2.enemy = m2.enemy) ∧
      (¬ toU32 ((i.now : Int) - s.lastEnemy) ≥ enemySpeed i.nowSpeed s.startTime →
        s2 = s1) := by
    unfold enemyTick
    rw [h1le, h1st]
    by_cases hc : toU32 ((i.now : Int) - s.lastEnemy) ≥ enemySpeed i.nowSpeed s.startTime
    · rw [if_pos hc, hm2]
      exact ⟨_, rfl, mlp2, mp2, fun _ => ⟨rfl, rfl⟩, fun h => absurd hc h⟩
    · rw [if_neg hc]
      exact ⟨s1, rfl, rfl, rfl, fun h => absurd h hc, fun _ => rfl⟩
  obtain ⟨s2, hs2, h2lp, h2p, h2a, h2b⟩ := he
  have hl : loop s i = some (collide s2 i) := by
    unfold loop
    rw [if_neg (by rw [hs]; decide), hs1, Option.some_bind, hs2, Option.some_bind]
  obtain ⟨c1, c2, _⟩ := collide_pos s2 i
  obtain ⟨c3, c4⟩ := collide_timers s2 i
  refine ⟨s1, s2, collide s2 i, hs1, hs2, hl, ?_, ?_, ?_, ?_, h1le, h1e, h2lp, h2p⟩
  · intro hc
    obtain ⟨a1, a2⟩ := h1a hc
    exact ⟨by rw [c3, h2lp, a1], m1, hm1, by rw [c1, h2p, a2]⟩
  · intro hc
    have a := h1b hc
    exact ⟨by rw [c3, h2lp, a], by rw [c1, h2p, a], a⟩
  · intro hc
    obtain ⟨a1, a2⟩ := h2a hc
    exact ⟨by rw [c4, a1], m2, hm2, by rw [c2, a2]⟩
  · intro hc
    have a := h2b hc
    exact ⟨by rw [c4, a, h1le], by rw [c2, a, h1e], a⟩

/-- Instance: one idle call of `loop` right after `initGame`. -/
theorem tick_schedule_witness :
    Reach (initGame cornerState 0) ∧
    ∃ s1 s2 t, playerTick (initGame cornerState 0) idleInput = some s1 ∧
      enemyTick s1 idleInput = some s2 ∧ loop (initGame cornerState 0) idleInput = some t ∧
      (toU32 ((idleInput.now : Int) - (initGame cornerState 0).lastPlayer) ≥ PLAYER_SPEED →
        t.lastPlayer = idleInput.now ∧
        ∃ m, movePlayer (initGame cornerState 0) (readJoystick idleInput.jx idleInput.jy)
          = some m ∧ t.player = m.player) ∧
      (¬ toU32 ((idleInput.now : Int) - (initGame cornerState 0).lastPlayer) ≥ PLAYER_SPEED →
        t.lastPlayer = (initGame cornerState 0).lastPlayer ∧
        t.player = (initGame cornerState 0).player ∧ s1 = initGame cornerState 0) ∧
      (toU32 ((idleInput.now : Int) - (initGame cornerState 0).lastEnemy) ≥
          enemySpeed idleInput.nowSpeed (initGame cornerState 0).startTime →
        t.lastEnemy = idleInput.now ∧ ∃ m, moveEnemy s1 = some m ∧ t.enemy = m.enemy) ∧
      (¬ toU32 ((idleInput.now : Int) - (initGame cornerState 0).lastEnemy) ≥
          enemySpeed idleInput.nowSpeed (initGame cornerState 0).startTime →
        t.lastEnemy = (initGame cornerState 0).lastEnemy ∧
        t.enemy = (initGame cornerState 0).enemy ∧ s2 = s1) ∧
      s1.lastEnemy = (initGame cornerState 0).lastEnemy ∧
      s1.enemy = (initGame cornerState 0).enemy ∧
      s2.lastPlayer = s1.lastPlayer ∧ s2.player = s1.player :=
  ⟨Reach.init cornerState 0,
    tick_schedule (initGame cornerState 0) idleInput (Reach.init cornerState 0) rfl⟩

/-! ## Capacity of the queue and bounds of the table accesses -/

/-- The facts about a search state that keep every array access in bounds. -/
theorem BfsInv.capacity {g : Grid} {ex ey : Int} {par : Int → Int → Nat} {q : List Nat}
    {h : Nat} {lev : Nat → Nat} (I : BfsInv g ex ey par q h lev) (hs : inBounds ex ey) :
    q.Nodup ∧ q.length ≤ NCELLS ∧ (∀ c ∈ q, c < NCELLS) ∧
    (∀ x y, inBounds x y → par y x = NO_VISIT ∨ par y x < NCELLS) := by
  refine ⟨I.nodup, length_le_of_nodup I.nodup I.lt, I.lt, ?_⟩
  intro x y hxy
  by_cases hv : par y x = NO_VISIT
  · exact Or.inl hv
  · right
    have hm := (I.vis x y hxy).mp hv
    by_cases hsrc : p2i x y = p2i ex ey
    · have h1 := i2p_p2i hxy
      rw [hsrc, i2p_p2i hs] at h1
      simp only [Pos.mk.injEq] at h1
      rw [← h1.1, ← h1.2, I.src_par]
      exact p2i_lt hs
    · have h2 := (I.tree _ hm hsrc).2.1
      rw [i2p_p2i hxy] at h2
      exact I.lt _ h2

theorem visitTrace_inv {g : Grid} {ex ey : Int} {h ci : Nat} (ds : List (Int × Int)) :
    ∀ (st : Bfs) (lev : Nat → Nat), (∀ d ∈ ds, d ∈ DIRS) →
      BfsInv g ex ey st.par st.q h lev → st.q[h]? = some ci → st.head ≤ st.q.length →
      ∀ t ∈ visitTrace g ci st ds,
        (∃ lev1, BfsInv g ex ey t.par t.q h lev1) ∧ t.head ≤ t.q.length := by
  induction ds with
  | nil =>
    intro st lev _ _ _ _ t ht
    simp [visitTrace] at ht
  | cons d ds ih =>
    intro st lev hds I hq hhd t ht
    obtain ⟨hh, hci⟩ := List.getElem?_eq_some.mp hq
    subst hci
    obtain ⟨par, q, hd⟩ := st
    simp only at I hq hhd hh
    obtain ⟨lev1, I1, _, ⟨l, hl⟩, hhd1, _⟩ :=
      @visit_inv g ex ey par q h hd lev d I hh (hds d (List.mem_cons_self _ _))
    have hq1 : (visit g q[h] ⟨par, q, hd⟩ d).q[h]? = some q[h] := by
      rw [hl, List.getElem?_append_left hh]
      exact List.getElem?_eq_getElem hh
    have hhd2 : (visit g q[h] ⟨par, q, hd⟩ d).head ≤ (visit g q[h] ⟨par, q, hd⟩ d).q.length := by
      rw [hhd1, hl, List.length_append]
      omega
    simp only [visitTrace, List.mem_cons] at ht
    rcases ht with ht | ht
    · rw [ht]
      exact ⟨⟨lev1, I1⟩, hhd2⟩
    · exact ih _ lev1 (fun d1 hd1 => hds d1 (List.mem_cons_of_mem _ hd1)) I1 hq1 hhd2 t ht

/-- Every state of the search loop satisfies the loop invariant for some number
of expanded entries, and its read index is at most its write index. -/
theorem bfsTrace_inv {g : Grid} {ex ey : Int} (dstI : Nat) :
    ∀ (fuel : Nat) (st : Bfs) (lev : Nat → Nat),
      BfsInv g ex ey st.par st.q st.head lev →
      ∀ t ∈ bfsTrace g dstI fuel st,
        (∃ h lev1, BfsInv g ex ey t.par t.q h lev1) ∧ t.head ≤ t.q.length := by
  intro fuel
  induction fuel with
  | zero =>
    intro st lev I t ht
    simp only [bfsTrace, List.mem_singleton] at ht
    rw [ht]
    exact ⟨⟨_, lev, I⟩, I.h_le⟩
  | succ fuel ih =>
    intro st lev I t ht
    simp only [bfsTrace] at ht
    by_cases hh : st.head < st.q.length
    · rw [if_pos hh] at ht
      have hst1 : (∃ h lev1, BfsInv g ex ey st.par st.q h lev1) ∧ st.head + 1 ≤ st.q.length :=
        ⟨⟨_, lev, I⟩, hh⟩
      by_cases hc : st.q.getD st.head 0 = dstI
      · rw [if_pos hc] at ht
        simp only [List.mem_cons, List.mem_singleton, List.not_mem_nil, or_false] at ht
        rcases ht with ht | ht
        · rw [ht]
          exact ⟨⟨_, lev, I⟩, I.h_le⟩
        · rw [ht]
          exact hst1
      · rw [if_neg hc] at ht
        have hq : st.q[st.head]? = some (st.q.getD st.head 0) := by
          rw [List.getD_eq_getElem?_getD, List.getElem?_eq_getElem hh]
          rfl
        simp only [List.mem_cons, List.mem_append] at ht
        rcases ht with ht | ht | ht | ht
        · rw [ht]
          exact ⟨⟨_, lev, I⟩, I.h_le⟩
        · rw [ht]
          exact hst1
        · obtain ⟨⟨lev1, I1⟩, h2⟩ :=
            @visitTrace_inv g ex ey st.head (st.q.getD st.head 0) DIRS
              ⟨st.par, st.q, st.head + 1⟩ lev (fun _ hd => hd) I hq hh t ht
          exact ⟨⟨_, lev1, I1⟩, h2⟩
        · obtain ⟨lev1, I1, hhd⟩ :=
            @expand_inv g ex ey ⟨st.par, st.q, st.head + 1⟩ st.head lev (st.q.getD st.head 0) I hq
          simp only at hhd
          refine ih (expand g (st.q.getD st.head 0) ⟨st.par, st.q, st.head + 1⟩) lev1 ?_ t ht
          rw [hhd]
          exact I1
    · rw [if_neg hh] at ht
      simp only [List.mem_singleton] at ht
      rw [ht]
      exact ⟨⟨_, lev, I⟩, I.h_le⟩

/-- The state returned by the search loop is the last state it goes through. -/
theorem bfsLoop_mem_trace (g : Grid) (dstI : Nat) :
    ∀ (fuel : Nat) (st r : Bfs), bfsLoop g dstI fuel st = some r →
      r ∈ bfsTrace g dstI fuel st := by
  intro fuel
  induction fuel with
  | zero =>
    intro st r h
    simp [bfsLoop] at h
  | succ fuel ih =>
    intro st r h
    rw [bfsLoop] at h
    rw [bfsTrace]
    by_cases hh : st.head < st.q.length
    · rw [if_pos hh] at h ⊢
      by_cases hc : st.q.getD st.head 0 = dstI
      · simp only [if_pos hc] at h ⊢
        rw [← Option.some.inj h]
        simp
      · simp only [if_neg hc] at h ⊢
        have := ih _ _ h
        simp only [List.mem_cons, List.mem_append]
        exact Or.inr (Or.inr (Or.inr this))
    · rw [if_neg hh] at h ⊢
      rw [← Option.some.inj h]
      simp

/-- The back-walk from a queued cell only goes through queued cells. -/
theorem walkTrace_mem {g : Grid} {ex ey : Int} {par : Int → Int → Nat} {q : List Nat}
    {h : Nat} {lev : Nat → Nat} (I : BfsInv g ex ey par q h lev) (hs : inBounds ex ey) :
    ∀ (fuel cur : Nat), cur ∈ q → ∀ c ∈ walkTrace par (p2i ex ey) fuel cur, c ∈ q := by
  intro fuel
  induction fuel with
  | zero =>
    intro cur _ c hc
    simp [walkTrace] at hc
  | succ fuel ih =>
    intro cur hcur c hc
    simp only [walkTrace] at hc
    by_cases h1 : par (i2p cur).y (i2p cur).x = p2i ex ey
    · rw [if_pos h1, List.mem_singleton] at hc
      rw [hc]; exact hcur
    · rw [if_neg h1] at hc
      by_cases h2 : par (i2p cur).y (i2p cur).x = cur
      · rw [if_pos h2, List.mem_singleton] at hc
        rw [hc]; exact hcur
      · rw [if_neg h2, List.mem_cons] at hc
        rcases hc with hc | hc
        · rw [hc]; exact hcur
        · have hne : cur ≠ p2i ex ey := by
            intro he
            apply h1
            rw [he, i2p_p2i hs]
            exact I.src_par
          exact ih _ (I.tree cur hcur hne).2.1 c hc

/-- C11: for every grid content and in-bounds enemy and player cells, every
state `t` that the search loop of `bfsNextStep` goes through has a queue
without repetition (each cell index is enqueued at most once), a write index
`tail = t.q.length` of at most `NCELLS`, a read index `head` of at most
`tail`, only valid cell indices in the queue, and only `NO_VISIT` or valid cell
indices in the in-bounds entries of `bfsPar`. Hence every access is in bounds:
`bfsQ[head++]` is read with `head < tail <= NCELLS`, `bfsQ[tail++]` is written
with the new `tail <= NCELLS`, `bfsPar[ny][nx]` is accessed after the bounds
test, and the back-walk reads `bfsPar` only at cells `i2p(cur)` of valid
indices `cur`. -/
theorem queue_capacity (g : Grid) (ex ey px py : Int) (hs : inBounds ex ey)
    (hp : inBounds px py) (fuel : Nat) :
    (∀ t ∈ bfsTrace g (p2i px py) fuel (bfsInit ex ey),
      t.q.Nodup ∧ t.q.length ≤ NCELLS ∧ t.head ≤ t.q.length ∧ (∀ c ∈ t.q, c < NCELLS) ∧
      (∀ x y, inBounds x y → t.par y x = NO_VISIT ∨ t.par y x < NCELLS)) ∧
    (∀ st, bfsLoop g (p2i px py) fuel (bfsInit ex ey) = some st →
      st ∈ bfsTrace g (p2i px py) fuel (bfsInit ex ey) ∧
      (st.par py px ≠ NO_VISIT →
        ∀ k, ∀ c ∈ walkTrace st.par (p2i ex ey) k (p2i px py),
          c < NCELLS ∧ inBounds (i2p c).x (i2p c).y)) := by
  have htr := bfsTrace_inv (p2i px py) fuel (bfsInit ex ey) _ (bfsInit_inv g hs)
  constructor
  · intro t ht
    obtain ⟨⟨h, lev, I⟩, hhd⟩ := htr t ht
    obtain ⟨c1, c2, c3, c4⟩ := I.capacity hs
    exact ⟨c1, c2, hhd, c3, c4⟩
  · intro st hst
    have hmem := bfsLoop_mem_trace g (p2i px py) fuel _ _ hst
    refine ⟨hmem, ?_⟩
    intro hv k c hc
    obtain ⟨⟨h, lev, I⟩, _⟩ := htr st hmem
    have hd := (I.vis px py hp).mp hv
    have hcq := walkTrace_mem I hs k _ hd c hc
    exact ⟨I.lt c hcq, inBounds_i2p (I.lt c hcq)⟩

/-- Instance: the open grid, enemy at `(0, 0)`, player at `(1, 0)`. -/
theorem queue_capacity_witness :
    (∀ t ∈ bfsTrace openGrid (p2i 1 0) (NCELLS + 1) (bfsInit 0 0),
      t.q.Nodup ∧ t.q.length ≤ NCELLS ∧ t.head ≤ t.q.length ∧ (∀ c ∈ t.q, c < NCELLS) ∧
      (∀ x y, inBounds x y → t.par y x = NO_VISIT ∨ t.par y x < NCELLS)) ∧
    (∀ st, bfsLoop openGrid (p2i 1 0) (NCELLS + 1) (bfsInit 0 0) = some st →
      st ∈ bfsTrace openGrid (p2i 1 0) (NCELLS + 1) (bfsInit 0 0) ∧
      (st.par 0 1 ≠ NO_VISIT →
        ∀ k, ∀ c ∈ walkTrace st.par (p2i 0 0) k (p2i 1 0),
          c < NCELLS ∧ inBounds (i2p c).x (i2p c).y)) :=
  queue_capacity openGrid 0 0 1 0 (by decide) (by decide) (NCELLS + 1)

/-- C18: for every grid content and in-bounds enemy and player cells,
`bfsNextStep` returns. The search loop ends within `NCELLS + 1` evaluations of
its condition, having dequeued `head <= NCELLS` entries, and more fuel gives
the same answer. When the player's cell was visited, the back-walk returns
within `NCELLS` iterations, through the exit `par == srcI`: its result is an
in-bounds cell whose predecessor is the source, never the fallback
`(-1, -1)`. The predecessors form a chain without cycle: a level function
strictly decreases from each visited cell other than the source to its
predecessor, which is visited too, and the source is the only visited cell
that is its own predecessor. -/
theorem bfsNextStep_terminates (g : Grid) (ex ey px py : Int) (hs : inBounds ex ey)
    (hp : inBounds px py) :
    ∃ st r, bfsLoop g (p2i px py) (NCELLS + 1) (bfsInit ex ey) = some st ∧
      st.head ≤ NCELLS ∧
      bfsNextStep g ex ey px py = some r ∧
      (∀ fuel, NCELLS + 1 ≤ fuel → bfsNextStepFuel fuel g ex ey px py = some r) ∧
      (st.par py px = NO_VISIT → r = ⟨-1, -1⟩) ∧
      (st.par py px ≠ NO_VISIT →
        walkBack st.par (p2i ex ey) NCELLS (p2i px py) = some r ∧
        inBounds r.x r.y ∧ r ≠ ⟨-1, -1⟩ ∧ st.par r.y r.x = p2i ex ey) ∧
      (∃ lev : Nat → Nat, ∀ x y, inBounds x y → st.par y x ≠ NO_VISIT →
        (st.par y x = p2i x y ↔ (x = ex ∧ y = ey)) ∧
        (¬ (x = ex ∧ y = ey) →
          st.par y x < NCELLS ∧
          st.par (i2p (st.par y x)).y (i2p (st.par y x)).x ≠ NO_VISIT ∧
          lev (st.par y x) < lev (p2i x y))) := by
  obtain ⟨st, hst, _⟩ :=
    bfsLoop_done (p2i px py) (NCELLS + 1) (bfsInit ex ey) _ (bfsInit_inv g hs)
      (by simp only [bfsInit]; omega)
  have hmem := bfsLoop_mem_trace g (p2i px py) _ _ _ hst
  obtain ⟨⟨h, lev, I⟩, hhd⟩ :=
    bfsTrace_inv (p2i px py) (NCELLS + 1) (bfsInit ex ey) _ (bfsInit_inv g hs) st hmem
  have hlen := length_le_of_nodup I.nodup I.lt
  have hstep : bfsNextStep g ex ey px py =
      if st.par py px = NO_VISIT then some ⟨-1, -1⟩
      else walkBack st.par (p2i ex ey) (NCELLS + 1) (p2i px py) := by
    unfold bfsNextStep bfsNextStepFuel
    rw [hst]
  have hres : ∃ r, bfsNextStep g ex ey px py = some r ∧
      (st.par py px = NO_VISIT → r = ⟨-1, -1⟩) ∧
      (st.par py px ≠ NO_VISIT →
        walkBack st.par (p2i ex ey) NCELLS (p2i px py) = some r ∧
        inBounds r.x r.y ∧ r ≠ ⟨-1, -1⟩ ∧ st.par r.y r.x = p2i ex ey) := by
    by_cases hv : st.par py px = NO_VISIT
    · rw [hstep, if_pos hv]
      exact ⟨_, rfl, fun _ => rfl, fun h => absurd hv h⟩
    · have hm := (I.vis px py hp).mp hv
      have hlt : lev (p2i px py) < NCELLS := lt_of_lt_of_le (I.lev_lt _ hm) hlen
      obtain ⟨c, hwb, hcq, hpar, _, _⟩ := walkBack_spec I hs NCELLS _ hm hlt
      have hin := inBounds_i2p (I.lt c hcq)
      rw [hstep, if_neg hv, walkBack_fuel_le _ _ (Nat.le_succ _) hwb]
      refine ⟨_, rfl, fun h => absurd h hv, fun _ => ⟨hwb, hin, ?_, hpar⟩⟩
      intro he
      rw [he] at hin
      exact absurd hin (by decide)
  obtain ⟨r, hr, hr1, hr2⟩ := hres
  refine ⟨st, r, hst, le_trans hhd hlen, hr, ?_, hr1, hr2, lev, ?_⟩
  · intro fuel hf
    rw [bfsNextStepFuel_eq g hs hp fuel hf]
    exact hr
  · intro x y hxy hv
    have hm := (I.vis x y hxy).mp hv
    by_cases hsrc : x = ex ∧ y = ey
    · obtain ⟨rfl, rfl⟩ := hsrc
      exact ⟨⟨fun _ => ⟨rfl, rfl⟩, fun _ => I.src_par⟩, fun h => absurd ⟨rfl, rfl⟩ h⟩
    · have hne : p2i x y ≠ p2i ex ey := by
        intro he
        apply hsrc
        have h1 := i2p_p2i hxy
        rw [he, i2p_p2i hs] at h1
        simp only [Pos.mk.injEq] at h1
        exact ⟨h1.1.symm, h1.2.symm⟩
      obtain ⟨_, t2, _, t4⟩ := I.tree _ hm hne
      rw [i2p_p2i hxy] at t2 t4
      simp only at t2 t4
      refine ⟨⟨fun he => ?_, fun h => absurd h hsrc⟩, fun _ => ⟨I.lt _ t2, ?_, by omega⟩⟩
      · rw [he] at t4
        omega
      · apply (I.vis _ _ (inBounds_i2p (I.lt _ t2))).mpr
        rw [p2i_i2p (I.lt _ t2)]
        exact t2

/-- Instance: the open grid, enemy at `(0, 0)`, player at `(1, 0)`. -/
theorem bfsNextStep_terminates_witness :
    ∃ st r, bfsLoop openGrid (p2i 1 0) (NCELLS + 1) (bfsInit 0 0) = some st ∧
      st.head ≤ NCELLS ∧
      bfsNextStep openGrid 0 0 1 0 = some r ∧
      (∀ fuel, NCELLS + 1 ≤ fuel → bfsNextStepFuel fuel openGrid 0 0 1 0 = some r) ∧
      (st.par 0 1 = NO_VISIT → r = ⟨-1, -1⟩) ∧
      (st.par 0 1 ≠ NO_VISIT →
        walkBack st.par (p2i 0 0) NCELLS (p2i 1 0) = some r ∧
        inBounds r.x r.y ∧ r ≠ ⟨-1, -1⟩ ∧ st.par r.y r.x = p2i 0 0) ∧
      (∃ lev : Nat → Nat, ∀ x y, inBounds x y → st.par y x ≠ NO_VISIT →
        (st.par y x = p2i x y ↔ (x = 0 ∧ y = 0)) ∧
        (¬ (x = 0 ∧ y = 0) →
          st.par y x < NCELLS ∧
          st.par (i2p (st.par y x)).y (i2p (st.par y x)).x ≠ NO_VISIT ∧
          lev (st.par y x) < lev (p2i x y))) :=
  bfsNextStep_terminates openGrid 0 0 1 0 (by decide) (by decide)

/-! ## The built-in maze -/

set_option maxRecDepth 1000000 in
theorem tplAllVisited_true : tplAllVisited = true := by decide!

set_option maxRecDepth 1000000 in
theorem tpl_count :
    (Finset.filter (fun rc : Fin 16 × Fin 32 => mazeTpl (rc.1 : Nat) (rc.2 : Nat) = '0')
      Finset.univ).card = 261 := by decide!

theorem tpl_visited :
    ∃ st, tplSearch = some st ∧
      ∀ r, r < 16 → ∀ c, c < 32 → mazeTpl (r : Nat) (c : Nat) = '0' →
        st.par (r : Nat) (c : Nat) ≠ NO_VISIT := by
  have h := tplAllVisited_true
  unfold tplAllVisited at h
  cases hs : tplSearch with
  | none =>
    rw [hs] at h
    exact absurd h (by decide)
  | some st =>
    rw [hs] at h
    refine ⟨st, rfl, ?_⟩
    intro r hr c hc hz
    simp only [List.all_eq_true, List.mem_range, Bool.or_eq_true, bne_iff_ne, ne_eq] at h
    rcases h r hr c hc with h1 | h1
    · exact absurd hz h1
    · exact h1

/-- Every cell `'0'` of the template can be reached from the spawn `(1, 1)`. -/
theorem tpl_reachable {x y : Int} (hxy : inBounds x y) (hz : mazeTpl y x = '0') :
    Reachable tplGrid ⟨1, 1⟩ ⟨x, y⟩ := by
  obtain ⟨st, hst, hvis⟩ := tpl_visited
  have hs : inBounds 1 1 := by decide
  have hmem := bfsLoop_mem_trace tplGrid (p2i 0 0) _ _ _ hst
  obtain ⟨⟨h, lev, I⟩, _⟩ :=
    bfsTrace_inv (p2i 0 0) (NCELLS + 1) (bfsInit 1 1) _ (bfsInit_inv tplGrid hs) st hmem
  have hb := hxy
  simp only [inBounds, COLS, ROWS] at hb
  have hx : ((x.toNat : Nat) : Int) = x := Int.toNat_of_nonneg hb.1
  have hy : ((y.toNat : Nat) : Int) = y := Int.toNat_of_nonneg hb.2.2.1
  have hv := hvis y.toNat (by omega) x.toNat (by omega) (by rw [hx, hy]; exact hz)
  rw [hx, hy] at hv
  have hq := (I.vis x y hxy).mp hv
  have hw := I.walk_of_mem hs _ _ hq rfl
  rw [i2p_p2i hxy] at hw
  exact ⟨_, hw⟩

theorem adj4_symm {a b : Pos} (h : adj4 a b) : adj4 b a := by
  simp only [adj4] at h ⊢
  omega

theorem Walk.free_end {g : Grid} {a b : Pos} {n : Nat} (w : Walk g a b n)
    (ha : freeCell g a) : freeCell g b := by
  cases w with
  | nil => exact ha
  | snoc _ _ hf => exact hf

theorem Walk.symm {g : Grid} {a b : Pos} {n : Nat} (w : Walk g a b n) (ha : freeCell g a) :
    Walk g b a n := by
  induction w with
  | nil => exact Walk.nil
  | @snoc b c n w hadj _ ih =>
    have w1 : Walk g c b 1 := Walk.snoc Walk.nil (adj4_symm hadj) (w.free_end ha)
    have := w1.trans ih
    rw [Nat.add_comm] at this
    exact this

/-- C15: `MAZE_TPL` has exactly 261 cells `'0'`; every one of them can be
reached from the player spawn `(1, 1)` through 4-connected non-wall cells; and
for every two distinct cells `'0'` of the template taken as enemy and player,
`bfsNextStep` on the template grid returns an in-bounds cell, not the sentinel
`(-1, -1)`. -/
theorem maze_connected :
    (Finset.filter (fun rc : Fin 16 × Fin 32 => mazeTpl (rc.1 : Nat) (rc.2 : Nat) = '0')
      Finset.univ).card = 261 ∧
    (∀ x y, inBounds x y → mazeTpl y x = '0' → Reachable tplGrid ⟨1, 1⟩ ⟨x, y⟩) ∧
    (∀ e p : Pos, inBounds e.x e.y → mazeTpl e.y e.x = '0' → inBounds p.x p.y →
      mazeTpl p.y p.x = '0' → e ≠ p →
      ∃ r, bfsNextStep tplGrid e.x e.y p.x p.y = some r ∧ inBounds r.x r.y ∧
        r ≠ ⟨-1, -1⟩) := by
  refine ⟨tpl_count, fun x y hxy hz => tpl_reachable hxy hz, ?_⟩
  intro e p he hez hp hpz _
  obtain ⟨ex, ey⟩ := e
  obtain ⟨px, py⟩ := p
  simp only at he hez hp hpz
  have hspawn : freeCell tplGrid ⟨1, 1⟩ := ⟨by decide, by decide⟩
  obtain ⟨n1, w1⟩ := tpl_reachable he hez
  obtain ⟨n2, w2⟩ := tpl_reachable hp hpz
  have hreach : Reachable tplGrid ⟨ex, ey⟩ ⟨px, py⟩ := ⟨_, (w1.symm hspawn).trans w2⟩
  obtain ⟨r, hr, hcase⟩ := bfsNextStep_spec tplGrid he hp
  rcases hcase with ⟨_, h2⟩ | ⟨h1, _⟩
  · exact absurd hreach h2
  · refine ⟨r, hr, h1, ?_⟩
    intro h
    rw [h] at h1
    exact absurd h1 (by decide)

/-! ## A session that ends in a collision -/

set_option maxRecDepth 1000000 in
theorem spawnDepth_eq : spawnDepth = some 44 := by decide!

theorem parDepth_lev {g : Grid} {ex ey : Int} {par : Int → Int → Nat} {q : List Nat}
    {h : Nat} {lev : Nat → Nat} (I : BfsInv g ex ey par q h lev) :
    ∀ (fuel c k : Nat), c ∈ q → parDepth par (p2i ex ey) fuel c = some k → k = lev c := by
  intro fuel
  induction fuel with
  | zero =>
    intro c k _ hk
    simp [parDepth] at hk
  | succ fuel ih =>
    intro c k hc hk
    simp only [parDepth] at hk
    by_cases hsrc : c = p2i ex ey
    · rw [if_pos hsrc] at hk
      rw [hsrc, I.src_lev]
      exact (Option.some.inj hk).symm
    · rw [if_neg hsrc] at hk
      obtain ⟨_, t2, _, t4⟩ := I.tree c hc hsrc
      cases hd : parDepth par (p2i ex ey) fuel (par (i2p c).y (i2p c).x) with
      | none =>
        rw [hd] at hk
        simp at hk
      | some k1 =>
        rw [hd] at hk
        simp only [Option.map_some'] at hk
        have := ih _ _ t2 hd
        have hk1 := Option.some.inj hk
        omega

/-- On the template the player spawn is at distance 44 from the enemy spawn. -/
theorem spawn_dist : IsDist tplGrid ⟨29, 13⟩ ⟨1, 1⟩ 44 := by
  have hs : inBounds 29 13 := by decide
  have hp : inBounds 1 1 := by decide
  obtain ⟨st, hst, D⟩ :=
    bfsLoop_done (p2i 1 1) (NCELLS + 1) (bfsInit 29 13) _ (bfsInit_inv tplGrid hs)
      (by simp only [bfsInit]; omega)
  obtain ⟨q, h, lev, I, hw⟩ := D.dst_mem hs
  have hspawn : freeCell tplGrid ⟨1, 1⟩ := ⟨by decide, by decide⟩
  obtain ⟨n, w⟩ := @tpl_reachable 29 13 hs (by decide)
  obtain ⟨hm, _⟩ := hw n (w.symm hspawn)
  have hdep := spawnDepth_eq
  unfold spawnDepth at hdep
  rw [hst, Option.some_bind] at hdep
  have hlev := parDepth_lev I _ _ _ hm hdep
  have hwalk := I.walk_of_mem hs _ _ hm rfl
  rw [i2p_p2i hp, ← hlev] at hwalk
  refine ⟨hwalk, ?_⟩
  intro k wk
  have := (hw k wk).2
  omega

theorem freeCell_tpl {s : State} (I : GridInv s) (c : Pos) :
    freeCell s.grid c ↔ freeCell tplGrid c := by
  unfold freeCell
  constructor
  · rintro ⟨h1, h2⟩
    exact ⟨h1, fun h => h2 ((I.walls _ _ h1).mpr h)⟩
  · rintro ⟨h1, h2⟩
    exact ⟨h1, fun h => h2 ((I.walls _ _ h1).mp h)⟩

theorem walk_tpl {s : State} (I : GridInv s) (a b : Pos) (n : Nat) :
    Walk s.grid a b n ↔ Walk tplGrid a b n :=
  ⟨Walk.congr fun c => (freeCell_tpl I c).mp, Walk.congr fun c => (freeCell_tpl I c).mpr⟩

theorem run_append (s : State) (a b : List Input) :
    run s (a ++ b) = (run s a).bind fun t => run t b := by
  induction a generalizing s with
  | nil => rfl
  | cons i is ih =>
    simp only [List.cons_append, run]
    cases loop s i with
    | none => rfl
    | some t => simp only [Option.some_bind]; exact ih t

theorem Reach.run {s t : State} (hr : Reach s) (is : List Input) (h : run s is = some t) :
    Reach t := by
  induction is generalizing s with
  | nil =>
    simp only [Laberinto.run] at h
    rw [← Option.some.inj h]
    exact hr
  | cons i is ih =>
    simp only [Laberinto.run] at h
    cases hl : loop s i with
    | none =>
      rw [hl] at h
      simp at h
    | some u =>
      rw [hl, Option.some_bind] at h
      exact ih (Reach.step i hr hl) h

/-- One call of `loop` in which the joystick is centred and the enemy tick is
due, from an active state whose enemy is at distance `d + 1` from the player:
the player stays, the enemy comes to distance `d`. -/
theorem hunt_step (s : State) (i : Input) (hs : s.gameState = GState.PLAYING) (I : GridInv s)
    (hjoy : readJoystick i.jx i.jy = ⟨0, 0⟩)
    (hfire : toU32 ((i.now : Int) - s.lastEnemy) ≥ enemySpeed i.nowSpeed s.startTime)
    (d : Nat) (hd : IsDist tplGrid s.enemy s.player (d + 1)) :
    ∃ s2, (playerTick s i).bind (fun s1 => enemyTick s1 i) = some s2 ∧
      loop s i = some (collide s2 i) ∧ s2.player = s.player ∧
      IsDist tplGrid s2.enemy s2.player d ∧ s2.gameState = GState.PLAYING ∧
      s2.startTime = s.startTime ∧ s2.lastEnemy = i.now := by
  -- the player tick changes at most `lastPlayer`
  have hp : ∃ s1, playerTick s i = some s1 ∧ s1.grid = s.grid ∧ s1.player = s.player ∧
      s1.enemy = s.enemy ∧ s1.gameState = s.gameState ∧ s1.startTime = s.startTime ∧
      s1.lastEnemy = s.lastEnemy := by
    unfold playerTick
    by_cases hc : toU32 ((i.now : Int) - s.lastPlayer) ≥ PLAYER_SPEED
    · have hz : movePlayer s ⟨0, 0⟩ = some s := by
        unfold movePlayer
        rw [if_pos ⟨rfl, rfl⟩]
      rw [if_pos hc, hjoy, hz]
      exact ⟨_, rfl, rfl, rfl, rfl, rfl, rfl, rfl⟩
    · rw [if_neg hc]
      exact ⟨s, rfl, rfl, rfl, rfl, rfl, rfl, rfl⟩
  obtain ⟨s1, hs1, g1, p1, e1, gs1, st1, le1⟩ := hp
  have I1 : GridInv s1 := I.of_eq g1 p1 e1
  have hA : s1.grid s1.player.y s1.player.x = 'A' :=
    (I1.cellA _ _ I1.player_in).mpr ⟨rfl, rfl⟩
  have hP : s1.grid s1.enemy.y s1.enemy.x = 'P' := (I1.cellP _ _ I1.enemy_in).mpr ⟨rfl, rfl⟩
  have hd1 : IsDist tplGrid s1.enemy s1.player (d + 1) := by rw [e1, p1]; exact hd
  -- the enemy tick is due and the player can be reached
  have he : ∃ s2, enemyTick s1 i = some s2 ∧ s2.player = s1.player ∧
      IsDist tplGrid s2.enemy s2.player d ∧ s2.gameState = s1.gameState ∧
      s2.startTime = s1.startTime ∧ s2.lastEnemy = i.now := by
    have hfire1 : toU32 ((i.now : Int) - s1.lastEnemy) ≥ enemySpeed i.nowSpeed s1.startTime := by
      rw [le1, st1]
      exact hfire
    unfold enemyTick
    rw [if_pos hfire1]
    rcases moveEnemy_spec s1 I1.player_in I1.enemy_in hA hP with
      ⟨h1, _, _⟩ | ⟨next, d2, _, hin, hnw, hadj, _, hdist, hw, hmv⟩
    · exact absurd ⟨_, (walk_tpl I1 _ _ _).mpr hd1.1⟩ h1
    · have hdist2 : IsDist tplGrid s1.enemy s1.player d2 :=
        ⟨(walk_tpl I1 _ _ _).mp hdist.1, fun n w => hdist.2 n ((walk_tpl I1 _ _ _).mpr w)⟩
      have hd2 : d2 = d + 1 := hdist2.unique hd1
      subst hd2
      have hfree : freeCell tplGrid next := (freeCell_tpl I1 next).mp ⟨hin, hnw⟩
      rw [hmv]
      refine ⟨_, rfl, rfl, ⟨(walk_tpl I1 _ _ _).mp hw, ?_⟩, rfl, rfl, rfl⟩
      intro n w
      have w1 : Walk tplGrid s1.enemy next 1 := Walk.snoc Walk.nil hadj hfree
      have := hd1.2 _ (w1.trans w)
      omega
  obtain ⟨s2, hs2, p2, d2, gs2, st2, le2⟩ := he
  refine ⟨s2, ?_, ?_, by rw [p2, p1], d2, by rw [gs2, gs1, hs], by rw [st2, st1], le2⟩
  · rw [hs1, Option.some_bind, hs2]
  · unfold loop
    rw [if_neg (by rw [hs]; decide), hs1, Option.some_bind, hs2, Option.some_bind]

theorem readJoystick_centre : readJoystick 2048 2048 = ⟨0, 0⟩ := by decide

theorem tickInput_fire (k : Nat) (hk : k ≤ 43) (lastEnemy : Nat)
    (hl : lastEnemy ≤ 1000 * (k + 1)) :
    toU32 (((tickInput k).now : Int) - lastEnemy) ≥ enemySpeed (tickInput k).nowSpeed 1000 := by
  have h2 : (enemySpeed (tickInput k).nowSpeed 1000 : Int) ≤ 480 := by
    have e := enemySpeed_eq (tickInput k).nowSpeed 1000
    omega
  have h1 : toU32 (((tickInput k).now : Int) - lastEnemy) = 1000 * (k + 2) - lastEnemy := by
    simp only [tickInput]
    unfold toU32
    omega
  rw [h1]
  omega

theorem huntInputs_succ (k : Nat) : huntInputs (k + 1) = huntInputs k ++ [tickInput k] := by
  unfold huntInputs
  rw [List.range_succ, List.map_append, List.map_singleton]

/-- The first `k <= 43` calls of `loop` of the session: the game stays active,
the player stays on its spawn and the enemy is at distance `44 - k`. -/
theorem hunt_run : ∀ k, k ≤ 43 →
    ∃ s, run (initGame bootState 1000) (huntInputs k) = some s ∧ Reach s ∧
      s.gameState = GState.PLAYING ∧ s.player = ⟨1, 1⟩ ∧
      IsDist tplGrid s.enemy s.player (44 - k) ∧ s.lastEnemy ≤ 1000 * (k + 1) ∧
      s.startTime = 1000 := by
  intro k
  induction k with
  | zero =>
    intro _
    exact ⟨initGame bootState 1000, rfl, Reach.init _ _, rfl, rfl, spawn_dist, by decide, rfl⟩
  | succ k ih =>
    intro hk
    obtain ⟨s, hrun, hr, hs, hpl, hd, hle, hst⟩ := ih (by omega)
    have hd1 : IsDist tplGrid s.enemy s.player ((43 - k) + 1) := by
      have : 44 - k = (43 - k) + 1 := by omega
      rw [← this]
      exact hd
    have hfire := tickInput_fire k (by omega) s.lastEnemy hle
    rw [← hst] at hfire
    obtain ⟨s2, _, hl, p2, d2, gs2, st2, le2⟩ :=
      hunt_step s (tickInput k) hs (hr.inv hs) readJoystick_centre hfire (43 - k) hd1
    have hne : s2.player ≠ s2.enemy := fun h => d2.ne_of_pos (by omega) h.symm
    rw [collide_eq_of_ne s2 _ hne] at hl
    refine ⟨s2, ?_, Reach.step _ hr hl, gs2, by rw [p2, hpl], ?_, ?_, by rw [st2, hst]⟩
    · rw [huntInputs_succ, run_append, hrun, Option.some_bind]
      simp only [run, hl, Option.some_bind]
    · have : 44 - (k + 1) = 43 - k := by omega
      rw [this]
      exact d2
    · rw [le2]
      simp only [tickInput]
      omega

/-- Instance of the collision law at a colliding call: in the session of
`huntInputs`, the call number 43 of `loop` starts from a reachable active state
in which the enemy is next to the player on `(1, 1)`; both ticks run, the enemy
steps onto the player, the call ends in `GAME_OVER` with `surviveTime = 44000`,
and three further calls without the button leave that state as it is. -/
theorem collision_law_witness :
    Reach huntState ∧ huntState.gameState = GState.PLAYING ∧
    ∃ s2 t, (playerTick huntState (tickInput 43)).bind
        (fun s1 => enemyTick s1 (tickInput 43)) = some s2 ∧
      loop huntState (tickInput 43) = some t ∧ t.player = s2.player ∧ t.enemy = s2.enemy ∧
      s2.player = s2.enemy ∧ s2.player = ⟨1, 1⟩ ∧
      t.gameState = GState.GAME_OVER ∧
      t.surviveTime = toU32 (((tickInput 43).nowEnd : Int) - s2.startTime) ∧
      t.surviveTime = 44000 ∧
      run t [idleInput, idleInput, idleInput] = some t := by
  obtain ⟨s, hrun, hr, hs, hpl, hd, hle, hst⟩ := hunt_run 43 (le_refl _)
  have hS : huntState = s := by
    unfold huntState
    rw [hrun]
    rfl
  subst hS
  obtain ⟨part1, part2⟩ := collision_law huntState (tickInput 43) hr
  obtain ⟨s2, t, h1, h2, h3, h4, h5⟩ := part1 hs
  have hfire := tickInput_fire 43 (le_refl _) huntState.lastEnemy hle
  rw [← hst] at hfire
  obtain ⟨u, hu1, _, up, ud, _, ust, _⟩ :=
    hunt_step huntState (tickInput 43) hs (hr.inv hs) readJoystick_centre hfire 0 hd
  rw [h1] at hu1
  have hsu : s2 = u := Option.some.inj hu1
  subst hsu
  have hcol : s2.player = s2.enemy := ud.1.eq_of_zero
  obtain ⟨h6, h7⟩ := h5 hcol
  refine ⟨hr, hs, s2, t, h1, h2, h3, h4, hcol, by rw [up, hpl], h6, h7, ?_, ?_⟩
  · rw [h7, ust, hst]
    decide
  · apply part2 t h6
    intro j hj
    simp only [List.mem_cons, List.mem_singleton, List.not_mem_nil, or_false, or_self] at hj
    rw [hj]
    rfl

/-! ## Exactly the walls are impassable -/

theorem visit_queue (g : Grid) (ci : Nat) (st : Bfs) (d : Int × Int) :
    (visit g ci st d).q =
      if inBounds ((i2p ci).x + d.1) ((i2p ci).y + d.2) ∧
          g ((i2p ci).y + d.2) ((i2p ci).x + d.1) ≠ '1' ∧
          st.par ((i2p ci).y + d.2) ((i2p ci).x + d.1) = NO_VISIT
      then st.q ++ [p2i ((i2p ci).x + d.1) ((i2p ci).y + d.2)] else st.q := by
  by_cases h : inBounds ((i2p ci).x + d.1) ((i2p ci).y + d.2) ∧
      g ((i2p ci).y + d.2) ((i2p ci).x + d.1) ≠ '1' ∧
      st.par ((i2p ci).y + d.2) ((i2p ci).x + d.1) = NO_VISIT
  · rw [if_pos h, visit_new g ci st d h.1 h.2.1 h.2.2]
  · rw [if_neg h, visit_skip g ci st d h]

/-- The answer is the sentinel exactly when no walk through non-wall cells
exists, and a step that is answered is an in-bounds non-wall cell. -/
theorem bfsNextStep_blocked_iff (g : Grid) {ex ey px py : Int} (hs : inBounds ex ey)
    (hp : inBounds px py) :
    ∃ r, bfsNextStep g ex ey px py = some r ∧
      (r = ⟨-1, -1⟩ ↔ ¬ Reachable g ⟨ex, ey⟩ ⟨px, py⟩) ∧
      (r ≠ ⟨-1, -1⟩ → inBounds r.x r.y ∧ (¬ (ex = px ∧ ey = py) → g r.y r.x ≠ '1')) := by
  obtain ⟨r, hr, hcase⟩ := bfsNextStep_spec g hs hp
  refine ⟨r, hr, ?_⟩
  rcases hcase with ⟨h1, h2⟩ | ⟨h1, d, hd, _, h3⟩
  · exact ⟨⟨fun _ => h2, fun _ => h1⟩, fun h => absurd h1 h⟩
  · have hne : r ≠ ⟨-1, -1⟩ := by
      intro h
      rw [h] at h1
      exact absurd h1 (by decide)
    exact ⟨⟨fun h => absurd h hne, fun h => absurd ⟨d, hd.1⟩ h⟩,
      fun _ => ⟨h1, fun hxy => (h3 hxy).1.2⟩⟩

/-- An enemy next to a cell marked `'A'` steps onto that cell. -/
theorem bfsNextStep_onto_A (g : Grid) (e p : Pos) (he : inBounds e.x e.y)
    (hA : gridGet g p.y p.x = some 'A') (hadj : adj4 e p) :
    bfsNextStep g e.x e.y p.x p.y = some p := by
  obtain ⟨hp, hA1⟩ := gridGet_eq_some hA
  have hfree : freeCell g p := ⟨hp, by rw [hA1]; decide⟩
  have hne : e ≠ p := by
    intro h
    rw [h] at hadj
    simp only [adj4] at hadj
    omega
  have hd : IsDist g e p 1 := by
    refine ⟨Walk.snoc Walk.nil hadj hfree, ?_⟩
    intro n w
    rcases Nat.eq_zero_or_pos n with h0 | h0
    · subst h0
      exact absurd w.eq_of_zero.symm hne
    · exact h0
  obtain ⟨r, hr, _, _, _, hd0⟩ := bfsNextStep_step g he hp hne hd
  rw [hr, hd0.1.eq_of_zero]

/-- C17: `bfsNextStep` treats exactly the cells `'1'` as impassable.
(1) Two grids with the same wall cells give the same result for every query.
(2) A pass of the neighbour loop enqueues the neighbour exactly when it is in
bounds, is not `'1'` and is not yet visited, whatever else the cell holds.
(3) For in-bounds cells the sentinel is returned exactly when every route
meets a wall (no walk through cells other than `'1'` exists), and a step that
is answered is not a wall. (4) The search that `moveEnemy` runs on the grid
with the cells of the player and of the enemy cleared gives the same result
as the search on the grid itself. (5) The cell of the player is passable while
it is marked `'A'`: an enemy next to it steps onto it. (6) On the sealed grid
the walls block the search; on the grid of the corner state, with `'A'` and
`'P'` in place, the enemy at `(1, 0)` steps onto the player at `(0, 0)`. -/
theorem bfsNextStep_walls_only (g1 g2 : Grid)
    (h : ∀ x y, inBounds x y → (g1 y x = '1' ↔ g2 y x = '1')) (ex ey px py : Int) :
    bfsNextStep g1 ex ey px py = bfsNextStep g2 ex ey px py ∧
    (∀ (ci : Nat) (st : Bfs) (d : Int × Int),
      (visit g1 ci st d).q =
        if inBounds ((i2p ci).x + d.1) ((i2p ci).y + d.2) ∧
            g1 ((i2p ci).y + d.2) ((i2p ci).x + d.1) ≠ '1' ∧
            st.par ((i2p ci).y + d.2) ((i2p ci).x + d.1) = NO_VISIT
        then st.q ++ [p2i ((i2p ci).x + d.1) ((i2p ci).y + d.2)] else st.q) ∧
    (inBounds ex ey → inBounds px py →
      ∃ r, bfsNextStep g1 ex ey px py = some r ∧
        (r = ⟨-1, -1⟩ ↔ ¬ Reachable g1 ⟨ex, ey⟩ ⟨px, py⟩) ∧
        (r ≠ ⟨-1, -1⟩ → inBounds r.x r.y ∧ (¬ (ex = px ∧ ey = py) → g1 r.y r.x ≠ '1'))) ∧
    (∀ s : State, s.grid s.player.y s.player.x ≠ '1' → s.grid s.enemy.y s.enemy.x ≠ '1' →
      bfsNextStep (searchGrid s) s.enemy.x s.enemy.y s.player.x s.player.y =
        bfsNextStep s.grid s.enemy.x s.enemy.y s.player.x s.player.y) ∧
    (∀ (g : Grid) (e p : Pos), inBounds e.x e.y → gridGet g p.y p.x = some 'A' → adj4 e p →
      bfsNextStep g e.x e.y p.x p.y = some p) ∧
    bfsNextStep sealedGrid 0 0 5 5 = some ⟨-1, -1⟩ ∧
    bfsNextStep cornerState.grid 1 0 0 0 = some ⟨0, 0⟩ := by
  refine ⟨bfsNextStep_congr h ex ey px py, fun ci st d => visit_queue g1 ci st d,
    fun hs hp => bfsNextStep_blocked_iff g1 hs hp, ?_,
    fun g e p he hA hadj => bfsNextStep_onto_A g e p he hA hadj, by decide, by decide⟩
  intro s hp he
  exact bfsNextStep_congr (fun x y _ => searchGrid_wall s hp he y x) _ _ _ _

/-- Instance: the grid of the corner state, with `'A'` and `'P'` in place, and
the open grid have the same (empty) set of walls; the query is the enemy at
`(1, 0)` and the player at `(0, 0)`. -/
theorem bfsNextStep_walls_only_witness :
    (∀ x y, inBounds x y → (cornerState.grid y x = '1' ↔ openGrid y x = '1')) ∧
    (bfsNextStep cornerState.grid 1 0 0 0 = bfsNextStep openGrid 1 0 0 0 ∧
    (∀ (ci : Nat) (st : Bfs) (d : Int × Int),
      (visit cornerState.grid ci st d).q =
        if inBounds ((i2p ci).x + d.1) ((i2p ci).y + d.2) ∧
            cornerState.grid ((i2p ci).y + d.2) ((i2p ci).x + d.1) ≠ '1' ∧
            st.par ((i2p ci).y + d.2) ((i2p ci).x + d.1) = NO_VISIT
        then st.q ++ [p2i ((i2p ci).x + d.1) ((i2p ci).y + d.2)] else st.q) ∧
    (inBounds 1 0 → inBounds 0 0 →
      ∃ r, bfsNextStep cornerState.grid 1 0 0 0 = some r ∧
        (r = ⟨-1, -1⟩ ↔ ¬ Reachable cornerState.grid ⟨1, 0⟩ ⟨0, 0⟩) ∧
        (r ≠ ⟨-1, -1⟩ → inBounds r.x r.y ∧
          (¬ ((1 : Int) = 0 ∧ (0 : Int) = 0) → cornerState.grid r.y r.x ≠ '1'))) ∧
    (∀ s : State, s.grid s.player.y s.player.x ≠ '1' → s.grid s.enemy.y s.enemy.x ≠ '1' →
      bfsNextStep (searchGrid s) s.enemy.x s.enemy.y s.player.x s.player.y =
        bfsNextStep s.grid s.enemy.x s.enemy.y s.player.x s.player.y) ∧
    (∀ (g : Grid) (e p : Pos), inBounds e.x e.y → gridGet g p.y p.x = some 'A' → adj4 e p →
      bfsNextStep g e.x e.y p.x p.y = some p) ∧
    bfsNextStep sealedGrid 0 0 5 5 = some ⟨-1, -1⟩ ∧
    bfsNextStep cornerState.grid 1 0 0 0 = some ⟨0, 0⟩) :=
  have hw : ∀ x y, inBounds x y → (cornerState.grid y x = '1' ↔ openGrid y x = '1') := by
    intro x y _
    simp only [openGrid, cornerState]
    split_ifs <;> decide
  ⟨hw, bfsNextStep_walls_only cornerState.grid openGrid hw 1 0 0 0⟩

end Laberinto
